import Mathlib

/-!
# Verification of the hybrid-memory subsystem of `nine-skills-agentic-ai`

This file gives a shallow embedding, in Lean 4, of the Python code of the
repository `byrdter/nine-skills-agentic-ai`, centered on the hybrid memory /
retrieval subsystem (`src/03-hybrid-memory/knowledge_graph.py`,
`vector_search.py`, `hybrid_retrieval.py`), together with the pieces of
`src/02-interoperability/adapter_pattern.py` and
`src/01-state-management/basic_fsm.py` that the verified properties mention.

Modelling conventions:
* Python `float` values are modelled exactly: by `ℚ` where the code only
  adds, multiplies, divides and compares (RRF scores, embedding components),
  and by `ℝ` where `math.sqrt` is involved (cosine similarity values).
* Python `dict` is modelled as an insertion-ordered association list, and
  `collections.defaultdict(list)` as a total function `String → List _`
  (default `[]`) updated pointwise.
* Python `int` is modelled as `Int` wherever a negative value can change
  behaviour (`max_depth`, `top_k`, the RRF constant `k`), as `Nat` otherwise.
* A `raise` is modelled by returning `Except.error`.
* Fields of the Python dataclasses that are never read by any verified
  operation (`properties`, `valid_from`/`valid_to`, `created_at`/`updated_at`,
  timestamps, `context_prefix`, …) are omitted from the Lean structures.
-/

namespace NineSkills

/-- `RelationType` from `knowledge_graph.py` (the nine enum members). -/
inductive RelType where
  | owns
  | depends_on
  | delayed_by
  | affects
  | approved_by
  | allocated_to
  | reports_to
  | member_of
  | works_on
deriving DecidableEq, Repr

/-- `Entity` from `knowledge_graph.py` (fields read by the verified code). -/
structure Entity where
  entityId : String
  entityType : String
  name : String
deriving DecidableEq, Repr

/-- `Relationship` from `knowledge_graph.py` (fields read by the verified
code: `rel_id`, `source_id`, `target_id`, `rel_type`). -/
structure Relationship where
  relId : String
  sourceId : String
  targetId : String
  relType : RelType
deriving DecidableEq, Repr

/-- The state of a `KnowledgeGraph` object: the entity dictionary, the
relationship list, and the three indexes kept by the class
(`_outgoing`, `_incoming`, `_by_type`, all `defaultdict(list)`). -/
structure KnowledgeGraph where
  entities : List (String × Entity)
  relationships : List Relationship
  outgoing : String → List Relationship
  incoming : String → List Relationship
  byType : String → List Entity

/-- `KnowledgeGraph.__init__`. -/
def KnowledgeGraph.empty : KnowledgeGraph :=
  { entities := []
    relationships := []
    outgoing := fun _ => []
    incoming := fun _ => []
    byType := fun _ => [] }

/-- Python dict assignment `d[k] = v` on an insertion-ordered assoc list:
replace in place if the key is present, append otherwise. -/
def dictInsert (l : List (String × Entity)) (k : String) (v : Entity) :
    List (String × Entity) :=
  match l with
  | [] => [(k, v)]
  | (k', v') :: rest =>
      if k' == k then (k, v) :: rest else (k', v') :: dictInsert rest k v

/-- `KnowledgeGraph.add_entity`. -/
def KnowledgeGraph.addEntity (g : KnowledgeGraph) (e : Entity) : KnowledgeGraph :=
  { g with
    entities := dictInsert g.entities e.entityId e
    byType := fun t =>
      if t == e.entityType then g.byType t ++ [e] else g.byType t }

/-- `KnowledgeGraph.add_relationship`. -/
def KnowledgeGraph.addRelationship (g : KnowledgeGraph) (r : Relationship) :
    KnowledgeGraph :=
  { g with
    relationships := g.relationships ++ [r]
    outgoing := fun s =>
      if s == r.sourceId then g.outgoing s ++ [r] else g.outgoing s
    incoming := fun t =>
      if t == r.targetId then g.incoming t ++ [r] else g.incoming t }

/-- `KnowledgeGraph.get_outgoing`.  In Python the filter runs iff
`rel_type` is not `None` (enum members are truthy). -/
def KnowledgeGraph.getOutgoing (g : KnowledgeGraph) (entityId : String)
    (relType : Option RelType) : List Relationship :=
  let rels := g.outgoing entityId
  match relType with
  | none => rels
  | some t => rels.filter (fun r => r.relType == t)

/-- `KnowledgeGraph.get_incoming`. -/
def KnowledgeGraph.getIncoming (g : KnowledgeGraph) (entityId : String)
    (relType : Option RelType) : List Relationship :=
  let rels := g.incoming entityId
  match relType with
  | none => rels
  | some t => rels.filter (fun r => r.relType == t)

/-- One call against the `KnowledgeGraph` API that mutates the graph. -/
inductive GraphOp where
  | addEntity (e : Entity)
  | addRelationship (r : Relationship)
deriving DecidableEq, Repr

/-- Execute one mutating call. -/
def applyOp (g : KnowledgeGraph) : GraphOp → KnowledgeGraph
  | .addEntity e => g.addEntity e
  | .addRelationship r => g.addRelationship r

/-- The graph obtained from a fresh `KnowledgeGraph()` by a sequence of
`add_entity` / `add_relationship` calls. -/
def buildGraph (ops : List GraphOp) : KnowledgeGraph :=
  ops.foldl applyOp .empty

/-- The relationships added by a sequence of calls, in call order. -/
def opRels (ops : List GraphOp) : List Relationship :=
  ops.filterMap fun
    | .addRelationship r => some r
    | .addEntity _ => none

/-- The index-consistency invariant: the `_outgoing` and `_incoming`
indexes agree with filtering the `_relationships` list. -/
def IndexInv (g : KnowledgeGraph) : Prop :=
  (∀ id, g.outgoing id = g.relationships.filter (fun r => r.sourceId == id)) ∧
  (∀ id, g.incoming id = g.relationships.filter (fun r => r.targetId == id))

theorem indexInv_empty : IndexInv KnowledgeGraph.empty := by
  constructor <;> intro id <;> rfl

theorem indexInv_applyOp {g : KnowledgeGraph} (h : IndexInv g) (op : GraphOp) :
    IndexInv (applyOp g op) := by
  obtain ⟨hout, hinc⟩ := h
  cases op with
  | addEntity e =>
      exact ⟨hout, hinc⟩
  | addRelationship r =>
      constructor
      · intro id
        show (if id == r.sourceId then g.outgoing id ++ [r] else g.outgoing id)
          = List.filter (fun x => x.sourceId == id) (g.relationships ++ [r])
        rw [List.filter_append, hout id]
        by_cases h : r.sourceId = id
        · subst h; simp
        · have h1 : (id == r.sourceId) = false := by
            simp only [beq_eq_false_iff_ne, ne_eq]
            exact fun e => h e.symm
          have h2 : (r.sourceId == id) = false := by
            simpa only [beq_eq_false_iff_ne, ne_eq] using h
          simp [h1, h2]
      · intro id
        show (if id == r.targetId then g.incoming id ++ [r] else g.incoming id)
          = List.filter (fun x => x.targetId == id) (g.relationships ++ [r])
        rw [List.filter_append, hinc id]
        by_cases h : r.targetId = id
        · subst h; simp
        · have h1 : (id == r.targetId) = false := by
            simp only [beq_eq_false_iff_ne, ne_eq]
            exact fun e => h e.symm
          have h2 : (r.targetId == id) = false := by
            simpa only [beq_eq_false_iff_ne, ne_eq] using h
          simp [h1, h2]

theorem indexInv_foldl (ops : List GraphOp) :
    ∀ g : KnowledgeGraph, IndexInv g → IndexInv (ops.foldl applyOp g) := by
  induction ops with
  | nil => intro g h; exact h
  | cons op rest ih =>
      intro g h
      exact ih _ (indexInv_applyOp h op)

theorem indexInv_buildGraph (ops : List GraphOp) : IndexInv (buildGraph ops) :=
  indexInv_foldl ops _ indexInv_empty

theorem relationships_foldl (ops : List GraphOp) :
    ∀ g : KnowledgeGraph,
      (ops.foldl applyOp g).relationships = g.relationships ++ opRels ops := by
  induction ops with
  | nil => intro g; simp [opRels]
  | cons op rest ih =>
      intro g
      cases op with
      | addEntity e =>
          simp [List.foldl, ih, opRels, applyOp, KnowledgeGraph.addEntity]
      | addRelationship r =>
          simp [List.foldl, ih, opRels, applyOp, KnowledgeGraph.addRelationship]

theorem relationships_buildGraph (ops : List GraphOp) :
    (buildGraph ops).relationships = opRels ops := by
  simpa using relationships_foldl ops .empty

/-- **C10.** Index consistency is an invariant of the knowledge graph: after
any sequence of `add_entity` and `add_relationship` calls, `get_outgoing id`
with no type filter returns exactly the relationships added with
`source_id = id`, in insertion order, and `get_incoming id` those with
`target_id = id`; with a `rel_type` filter, each returns exactly the sublist
of those relationships having that type. -/
theorem claim_C10_index_consistency (ops : List GraphOp) (id : String)
    (t : RelType) :
    (buildGraph ops).getOutgoing id none =
      (opRels ops).filter (fun r => r.sourceId == id) ∧
    (buildGraph ops).getIncoming id none =
      (opRels ops).filter (fun r => r.targetId == id) ∧
    (buildGraph ops).getOutgoing id (some t) =
      ((opRels ops).filter (fun r => r.sourceId == id)).filter
        (fun r => r.relType == t) ∧
    (buildGraph ops).getIncoming id (some t) =
      ((opRels ops).filter (fun r => r.targetId == id)).filter
        (fun r => r.relType == t) := by
  obtain ⟨hout, hinc⟩ := indexInv_buildGraph ops
  have hrels := relationships_buildGraph ops
  refine ⟨?_, ?_, ?_, ?_⟩
  · simp [KnowledgeGraph.getOutgoing, hout id, hrels]
  · simp [KnowledgeGraph.getIncoming, hinc id, hrels]
  · simp [KnowledgeGraph.getOutgoing, hout id, hrels]
  · simp [KnowledgeGraph.getIncoming, hinc id, hrels]

/-!
## Multi-hop traversal (`KnowledgeGraph.traverse`)
-/

/-- `KnowledgeGraph.traverse`.  Follows the pattern of relationship types
from `start_id` along outgoing edges.  The Python code distinguishes, inside
its loop over the outgoing relationships, whether the remaining pattern is
empty; here that test is hoisted into the outer pattern match.  Note that
`max_depth` (Python `int`, default 10) is decremented on recursion but never
tested by the source code. -/
def traverseAux (g : KnowledgeGraph) : List RelType → Int → String → List (List String)
  | [], _, startId => [[startId]]
  | [t], _, startId =>
      (g.getOutgoing startId (some t)).flatMap fun rel =>
        [[startId, rel.targetId]]
  | t :: rest, maxDepth, startId =>
      (g.getOutgoing startId (some t)).flatMap fun rel =>
        (traverseAux g rest (maxDepth - 1) rel.targetId).map
          fun sub => startId :: sub
  termination_by structural pat _ _ => pat

/-- `KnowledgeGraph.traverse` with the Python argument order. -/
def KnowledgeGraph.traverse (g : KnowledgeGraph) (startId : String)
    (pathPattern : List RelType) (maxDepth : Int) : List (List String) :=
  traverseAux g pathPattern maxDepth startId

/-- All sequences of relationships drawn from `rels` that realize the given
type pattern starting at `startId`, in the enumeration order of the source
code (outgoing relationships in insertion order at each step). -/
def relSeqsFrom (rels : List Relationship) (startId : String) :
    List RelType → List (List Relationship)
  | [] => [[]]
  | t :: rest =>
      (rels.filter (fun r => r.relType == t && r.sourceId == startId)).flatMap
        fun r => (relSeqsFrom rels r.targetId rest).map fun s => r :: s

/-- A relationship sequence is a chain: each relationship leaves the node
the previous one entered, starting from `a`. -/
def chainOk (a : String) : List Relationship → Prop
  | [] => True
  | r :: rest => r.sourceId = a ∧ chainOk r.targetId rest

/-- The node sequence determined by a starting node and a relationship
chain. -/
def nodeSeq (startId : String) (s : List Relationship) : List String :=
  startId :: s.map (fun r => r.targetId)

theorem getOutgoing_buildGraph (ops : List GraphOp) (id : String) (t : RelType) :
    (buildGraph ops).getOutgoing id (some t) =
      (opRels ops).filter (fun r => r.relType == t && r.sourceId == id) := by
  show List.filter _ ((buildGraph ops).outgoing id) = _
  rw [(indexInv_buildGraph ops).1 id, relationships_buildGraph,
    List.filter_filter]

theorem traverse_eq_relSeqs (ops : List GraphOp) (pat : List RelType) :
    ∀ (startId : String) (d : Int),
      (buildGraph ops).traverse startId pat d =
        (relSeqsFrom (opRels ops) startId pat).map (nodeSeq startId) := by
  induction pat with
  | nil => intro s d; rfl
  | cons t rest ih =>
      intro s d
      cases rest with
      | nil =>
          rw [show (buildGraph ops).traverse s [t] d =
              ((buildGraph ops).getOutgoing s (some t)).flatMap
                (fun rel => [[s, rel.targetId]]) from rfl]
          rw [getOutgoing_buildGraph, relSeqsFrom, List.map_flatMap]
          rfl
      | cons t' rest' =>
          rw [show (buildGraph ops).traverse s (t :: t' :: rest') d =
              ((buildGraph ops).getOutgoing s (some t)).flatMap
                (fun rel => ((buildGraph ops).traverse rel.targetId
                  (t' :: rest') (d - 1)).map (fun sub => s :: sub)) from rfl]
          rw [getOutgoing_buildGraph, relSeqsFrom, List.map_flatMap]
          have hfun :
              (fun rel : Relationship =>
                  ((buildGraph ops).traverse rel.targetId (t' :: rest')
                    (d - 1)).map (fun sub => s :: sub)) =
              (fun rel : Relationship =>
                  ((relSeqsFrom (opRels ops) rel.targetId (t' :: rest')).map
                    (fun x => rel :: x)).map (nodeSeq s)) := by
            funext rel
            rw [ih rel.targetId (d - 1), List.map_map, List.map_map]
            rfl
          rw [hfun]

theorem mem_relSeqsFrom (rels : List Relationship) (pat : List RelType) :
    ∀ (startId : String) (s : List Relationship),
      s ∈ relSeqsFrom rels startId pat ↔
        s.map (fun r => r.relType) = pat ∧ (∀ r ∈ s, r ∈ rels) ∧
          chainOk startId s := by
  induction pat with
  | nil =>
      intro a s
      simp only [relSeqsFrom, List.mem_singleton]
      constructor
      · rintro rfl; exact ⟨rfl, by simp, trivial⟩
      · rintro ⟨hmap, -, -⟩
        exact List.map_eq_nil_iff.mp hmap
  | cons t rest ih =>
      intro a s
      simp only [relSeqsFrom, List.mem_flatMap, List.mem_map, List.mem_filter,
        Bool.and_eq_true, beq_iff_eq]
      constructor
      · rintro ⟨r, ⟨⟨hr, ht, hsrc⟩, s', hs', rfl⟩⟩
        obtain ⟨hmap, hmem, hchain⟩ := (ih _ _).mp hs'
        refine ⟨by simp [ht, hmap], ?_, hsrc, hchain⟩
        intro x hx
        rcases List.mem_cons.mp hx with rfl | hx'
        · exact hr
        · exact hmem _ hx'
      · rintro ⟨hmap, hmem, hchain⟩
        cases s with
        | nil => simp at hmap
        | cons r s' =>
            simp only [List.map_cons, List.cons.injEq] at hmap
            obtain ⟨hchain1, hchain2⟩ := hchain
            refine ⟨r, ⟨⟨hmem r (by simp), hmap.1, hchain1⟩, s', ?_, rfl⟩⟩
            exact (ih _ _).mpr ⟨hmap.2, fun x hx => hmem x (by simp [hx]), hchain2⟩

/-- **C3.** `traverse(start_id, path_pattern)` returns exactly the node
sequences `[start_id, n1, ..., nm]` with `m = len(path_pattern)` that are
realized by a chain of relationships of the graph whose types follow the
pattern — one returned path per matching sequence of relationships — and
`[[start_id]]` for the empty pattern. -/
theorem claim_C3_traverse_pattern_characterization (ops : List GraphOp)
    (startId : String) (pat : List RelType) (d : Int) :
    (buildGraph ops).traverse startId pat d =
      (relSeqsFrom (opRels ops) startId pat).map (nodeSeq startId) ∧
    (∀ s : List Relationship,
      s ∈ relSeqsFrom (opRels ops) startId pat ↔
        s.map (fun r => r.relType) = pat ∧ (∀ r ∈ s, r ∈ opRels ops) ∧
          chainOk startId s) ∧
    (buildGraph ops).traverse startId [] d = [[startId]] :=
  ⟨traverse_eq_relSeqs ops pat startId d,
   fun s => mem_relSeqsFrom (opRels ops) pat startId s, rfl⟩

/-- A two-relationship chain a → b → c used to exercise `traverse`. -/
def chainOps : List GraphOp :=
  [GraphOp.addRelationship ⟨"rel-1", "a", "b", RelType.owns⟩,
   GraphOp.addRelationship ⟨"rel-2", "b", "c", RelType.owns⟩]

/-- **C4.** The depth parameter of `traverse` is dead: on the chain
a → b → c, `traverse("a", [OWNS, OWNS], max_depth=1)` still returns the
two-hop path `[a, b, c]`, although two hops exceed `max_depth = 1`.  The
source decrements `max_depth` on recursion but never tests it. -/
theorem claim_C4_traverse_depth_bound_fails :
    (buildGraph chainOps).traverse "a" [RelType.owns, RelType.owns] 1 =
      [["a", "b", "c"]] ∧
    ¬ (∀ p ∈ (buildGraph chainOps).traverse "a"
        [RelType.owns, RelType.owns] 1, ((p.length : Int) - 1) ≤ 1) := by
  constructor
  · rfl
  · intro h
    have := h ["a", "b", "c"] (by rw [show (buildGraph chainOps).traverse "a"
      [RelType.owns, RelType.owns] 1 = [["a", "b", "c"]] from rfl]; simp)
    simp at this

/-!
## Neighborhood expansion (`KnowledgeGraph.find_all_connected`)
-/

/-- One `visited`/`new_frontier` update of `find_all_connected`: add the
node to both unless it was already visited. -/
def facVisit (acc : List String × List String) (n : String) :
    List String × List String :=
  if n ∈ acc.1 then acc else (acc.1 ++ [n], acc.2 ++ [n])

/-- Processing one frontier entity: scan its outgoing relationships (adding
targets), then its incoming relationships (adding sources). -/
def facNode (g : KnowledgeGraph) (acc : List String × List String)
    (entityId : String) : List String × List String :=
  let acc1 := (g.getOutgoing entityId none).foldl
    (fun a r => facVisit a r.targetId) acc
  (g.getIncoming entityId none).foldl (fun a r => facVisit a r.sourceId) acc1

/-- One iteration of the `for _ in range(max_hops)` loop: fold the frontier,
starting from the current `visited` and an empty `new_frontier`. -/
def facRound (g : KnowledgeGraph) (acc : List String × List String) :
    List String × List String :=
  acc.2.foldl (facNode g) (acc.1, [])

/-- The `max_hops` rounds of the loop. -/
def facIter (g : KnowledgeGraph) : Nat → List String × List String →
    List String × List String
  | 0, acc => acc
  | k + 1, acc => facIter g k (facRound g acc)

/-- `KnowledgeGraph.find_all_connected` (the returned `visited` set,
as a duplicate-free list in insertion order). -/
def KnowledgeGraph.findAllConnected (g : KnowledgeGraph) (startId : String)
    (maxHops : Nat) : List String :=
  (facIter g maxHops ([startId], [startId])).1

/-- An undirected edge: some relationship connects `a` and `b` in either
direction. -/
def undirEdge (rels : List Relationship) (a b : String) : Prop :=
  ∃ r ∈ rels, (r.sourceId = a ∧ r.targetId = b) ∨
    (r.sourceId = b ∧ r.targetId = a)

/-- `undirWalk rels a l`: starting at `a`, the successive nodes of `l` are
each joined to the previous one by an undirected edge. -/
def undirWalk (rels : List Relationship) : String → List String → Prop
  | _, [] => True
  | a, b :: rest => undirEdge rels a b ∧ undirWalk rels b rest

/-- The endpoint of the walk `a :: l`. -/
def walkEnd (a : String) : List String → String
  | [] => a
  | b :: rest => walkEnd b rest

/-- Nodes within `k` undirected hops of `s` (the radius-`k` ball). -/
def ballP (rels : List Relationship) (s : String) : Nat → String → Prop
  | 0, x => x = s
  | k + 1, x => ballP rels s k x ∨ ∃ y, ballP rels s k y ∧ undirEdge rels y x

/-- Nodes at undirected distance exactly `k` from `s`. -/
def sphereP (rels : List Relationship) (s : String) : Nat → String → Prop
  | 0, x => x = s
  | k + 1, x => ballP rels s (k + 1) x ∧ ¬ ballP rels s k x

/-- The neighbours scanned for one frontier entity, in scan order. -/
def nbrList (g : KnowledgeGraph) (entityId : String) : List String :=
  (g.getOutgoing entityId none).map (fun r => r.targetId) ++
    (g.getIncoming entityId none).map (fun r => r.sourceId)

theorem facNode_eq_fold (g : KnowledgeGraph) (acc : List String × List String)
    (entityId : String) :
    facNode g acc entityId = (nbrList g entityId).foldl facVisit acc := by
  simp [facNode, nbrList, List.foldl_append, List.foldl_map]

theorem mem_nbrList (ops : List GraphOp) (entityId x : String) :
    x ∈ nbrList (buildGraph ops) entityId ↔
      undirEdge (opRels ops) entityId x := by
  have hout := (indexInv_buildGraph ops).1 entityId
  have hinc := (indexInv_buildGraph ops).2 entityId
  simp only [nbrList, KnowledgeGraph.getOutgoing, KnowledgeGraph.getIncoming,
    List.mem_append, List.mem_map, hout, hinc, relationships_buildGraph,
    List.mem_filter, beq_iff_eq, undirEdge]
  constructor
  · rintro (⟨r, ⟨hr, hs⟩, ht⟩ | ⟨r, ⟨hr, ht⟩, hs⟩)
    · exact ⟨r, hr, Or.inl ⟨hs, ht⟩⟩
    · exact ⟨r, hr, Or.inr ⟨hs, ht⟩⟩
  · rintro ⟨r, hr, ⟨hs, ht⟩ | ⟨hs, ht⟩⟩
    · exact Or.inl ⟨r, ⟨hr, hs⟩, ht⟩
    · exact Or.inr ⟨r, ⟨hr, ht⟩, hs⟩

theorem facVisit_foldl_mem (ns : List String) :
    ∀ v nf : List String,
      (∀ x, x ∈ (ns.foldl facVisit (v, nf)).1 ↔ x ∈ v ∨ x ∈ ns) ∧
      (∀ x, x ∈ (ns.foldl facVisit (v, nf)).2 ↔
        x ∈ nf ∨ (x ∈ ns ∧ x ∉ v)) := by
  induction ns with
  | nil => intro v nf; simp
  | cons n rest ih =>
      intro v nf
      simp only [List.foldl_cons]
      by_cases hn : n ∈ v
      · rw [show facVisit (v, nf) n = (v, nf) from by simp [facVisit, hn]]
        obtain ⟨h1, h2⟩ := ih v nf
        refine ⟨fun x => ?_, fun x => ?_⟩
        · rw [h1 x, List.mem_cons]
          by_cases hx : x = n
          · subst hx; tauto
          · tauto
        · rw [h2 x, List.mem_cons]
          by_cases hx : x = n
          · subst hx; tauto
          · tauto
      · rw [show facVisit (v, nf) n = (v ++ [n], nf ++ [n]) from by
          simp [facVisit, hn]]
        obtain ⟨h1, h2⟩ := ih (v ++ [n]) (nf ++ [n])
        refine ⟨fun x => ?_, fun x => ?_⟩
        · rw [h1 x, List.mem_cons, List.mem_append, List.mem_singleton]
          tauto
        · rw [h2 x, List.mem_cons, List.mem_append, List.mem_singleton,
            List.mem_append, List.mem_singleton]
          by_cases hx : x = n
          · subst hx; tauto
          · tauto

theorem facNode_foldl_mem (g : KnowledgeGraph) (f : List String) :
    ∀ v nf : List String,
      (∀ x, x ∈ (f.foldl (facNode g) (v, nf)).1 ↔
        x ∈ v ∨ ∃ y ∈ f, x ∈ nbrList g y) ∧
      (∀ x, x ∈ (f.foldl (facNode g) (v, nf)).2 ↔
        x ∈ nf ∨ ((∃ y ∈ f, x ∈ nbrList g y) ∧ x ∉ v)) := by
  induction f with
  | nil => intro v nf; simp
  | cons y rest ih =>
      intro v nf
      simp only [List.foldl_cons, facNode_eq_fold]
      obtain ⟨g1, g2⟩ := facVisit_foldl_mem (nbrList g y) v nf
      obtain ⟨h1, h2⟩ := ih ((nbrList g y).foldl facVisit (v, nf)).1
        ((nbrList g y).foldl facVisit (v, nf)).2
      simp only [Prod.mk.eta] at h1 h2
      refine ⟨fun x => ?_, fun x => ?_⟩
      · rw [h1 x, g1 x]
        simp only [List.exists_mem_cons_iff]
        tauto
      · rw [h2 x, g2 x, g1 x]
        simp only [List.exists_mem_cons_iff]
        tauto

theorem sphereP_subset_ballP {rels : List Relationship} {s : String} :
    ∀ {j : Nat} {y : String}, sphereP rels s j y → ballP rels s j y := by
  intro j y h
  cases j with
  | zero => exact h
  | succ j => exact h.1

theorem ballP_succ {rels : List Relationship} {s : String} {j : Nat}
    {x : String} (h : ballP rels s j x) : ballP rels s (j + 1) x :=
  Or.inl h

theorem ballP_mono {rels : List Relationship} {s : String} :
    ∀ {j k : Nat}, j ≤ k → ∀ {x : String},
      ballP rels s j x → ballP rels s k x := by
  intro j k hjk
  induction k with
  | zero => intro x h; rw [Nat.le_zero.mp hjk] at h; exact h
  | succ k ih =>
      intro x h
      rcases Nat.lt_or_ge j (k + 1) with hlt | hge
      · exact ballP_succ (ih (Nat.lt_succ_iff.mp hlt) h)
      · rwa [Nat.le_antisymm hjk hge] at h

theorem ballP_cases {rels : List Relationship} {s : String} :
    ∀ {j : Nat} {y : String}, ballP rels s j y →
      sphereP rels s j y ∨ ∃ k, j = k + 1 ∧ ballP rels s k y := by
  intro j y h
  cases j with
  | zero => exact Or.inl h
  | succ j =>
      by_cases hb : ballP rels s j y
      · exact Or.inr ⟨j, rfl, hb⟩
      · exact Or.inl ⟨h, hb⟩

theorem facRound_spec (ops : List GraphOp) (s : String) (j : Nat)
    (v f : List String)
    (hv : ∀ x, x ∈ v ↔ ballP (opRels ops) s j x)
    (hf : ∀ x, x ∈ f ↔ sphereP (opRels ops) s j x) :
    (∀ x, x ∈ (facRound (buildGraph ops) (v, f)).1 ↔
      ballP (opRels ops) s (j + 1) x) ∧
    (∀ x, x ∈ (facRound (buildGraph ops) (v, f)).2 ↔
      sphereP (opRels ops) s (j + 1) x) := by
  obtain ⟨h1, h2⟩ := facNode_foldl_mem (buildGraph ops) f v []
  have hnbr : ∀ x, (∃ y ∈ f, x ∈ nbrList (buildGraph ops) y) ↔
      ∃ y, sphereP (opRels ops) s j y ∧ undirEdge (opRels ops) y x := by
    intro x
    constructor
    · rintro ⟨y, hy, hx⟩
      exact ⟨y, (hf y).mp hy, (mem_nbrList ops y x).mp hx⟩
    · rintro ⟨y, hy, hx⟩
      exact ⟨y, (hf y).mpr hy, (mem_nbrList ops y x).mpr hx⟩
  have hstep : ∀ x, ballP (opRels ops) s (j + 1) x ↔
      (ballP (opRels ops) s j x ∨
        ∃ y, sphereP (opRels ops) s j y ∧ undirEdge (opRels ops) y x) := by
    intro x
    constructor
    · rintro (hb | ⟨y, hy, he⟩)
      · exact Or.inl hb
      · rcases ballP_cases hy with hs | ⟨k, rfl, hk⟩
        · exact Or.inr ⟨y, hs, he⟩
        · by_cases hbx : ballP (opRels ops) s (k + 1) x
          · exact Or.inl hbx
          · exact Or.inl (Or.inr ⟨y, hk, he⟩)
    · rintro (hb | ⟨y, hy, he⟩)
      · exact Or.inl hb
      · exact Or.inr ⟨y, sphereP_subset_ballP hy, he⟩
  constructor
  · intro x
    rw [show facRound (buildGraph ops) (v, f) = f.foldl
      (facNode (buildGraph ops)) (v, []) from rfl, h1 x, hv x, hnbr x,
      hstep x]
  · intro x
    rw [show facRound (buildGraph ops) (v, f) = f.foldl
      (facNode (buildGraph ops)) (v, []) from rfl, h2 x, hnbr x, hv x]
    constructor
    · rintro (h | ⟨hy, hnb⟩)
      · simp at h
      · exact ⟨(hstep x).mpr (Or.inr hy), hnb⟩
    · rintro ⟨hb, hnb⟩
      rcases (hstep x).mp hb with hb' | hy
      · exact absurd hb' hnb
      · exact Or.inr ⟨hy, hnb⟩

theorem facIter_spec (ops : List GraphOp) (s : String) (k : Nat) :
    ∀ (j : Nat) (v f : List String),
      (∀ x, x ∈ v ↔ ballP (opRels ops) s j x) →
      (∀ x, x ∈ f ↔ sphereP (opRels ops) s j x) →
      ∀ x, x ∈ (facIter (buildGraph ops) k (v, f)).1 ↔
        ballP (opRels ops) s (j + k) x := by
  induction k with
  | zero => intro j v f hv _ x; exact hv x
  | succ k ih =>
      intro j v f hv hf x
      obtain ⟨h1, h2⟩ := facRound_spec ops s j v f hv hf
      have := ih (j + 1) (facRound (buildGraph ops) (v, f)).1
        (facRound (buildGraph ops) (v, f)).2 h1 h2 x
      rw [show facIter (buildGraph ops) (k + 1) (v, f) =
        facIter (buildGraph ops) k (facRound (buildGraph ops) (v, f))
        from rfl]
      rw [show j + (k + 1) = j + 1 + k by omega]
      simpa only [Prod.mk.eta] using this

theorem walkEnd_append (y : String) :
    ∀ (l : List String) (a : String), walkEnd a (l ++ [y]) = y := by
  intro l
  induction l with
  | nil => intro a; rfl
  | cons b rest ih => intro a; exact ih b

theorem undirWalk_append_singleton (rels : List Relationship) (y : String) :
    ∀ (l : List String) (a : String),
      undirWalk rels a (l ++ [y]) ↔
        undirWalk rels a l ∧ undirEdge rels (walkEnd a l) y := by
  intro l
  induction l with
  | nil =>
      intro a
      show undirEdge rels a y ∧ True ↔ True ∧ undirEdge rels a y
      tauto
  | cons b rest ih =>
      intro a
      show undirEdge rels a b ∧ undirWalk rels b (rest ++ [y]) ↔
        (undirEdge rels a b ∧ undirWalk rels b rest) ∧ _
      rw [ih b]
      tauto

theorem ballP_iff_walk (rels : List Relationship) (s : String) :
    ∀ (k : Nat) (x : String),
      ballP rels s k x ↔
        ∃ l : List String, undirWalk rels s l ∧ l.length ≤ k ∧
          walkEnd s l = x := by
  intro k
  induction k with
  | zero =>
      intro x
      constructor
      · rintro rfl; exact ⟨[], trivial, Nat.le_refl 0, rfl⟩
      · rintro ⟨l, _, hlen, hend⟩
        rw [List.length_eq_zero.mp (Nat.le_zero.mp hlen)] at hend
        exact hend.symm
  | succ k ih =>
      intro x
      constructor
      · rintro (hb | ⟨y, hy, he⟩)
        · obtain ⟨l, hw, hlen, hend⟩ := (ih x).mp hb
          exact ⟨l, hw, Nat.le_succ_of_le hlen, hend⟩
        · obtain ⟨l, hw, hlen, hend⟩ := (ih y).mp hy
          refine ⟨l ++ [x], ?_, ?_, walkEnd_append x l s⟩
          · rw [undirWalk_append_singleton, hend]
            exact ⟨hw, he⟩
          · simp only [List.length_append, List.length_singleton]
            omega
      · rintro ⟨l, hw, hlen, hend⟩
        rcases l.eq_nil_or_concat with rfl | ⟨l', y, rfl⟩
        · exact ballP_succ ((ih x).mpr ⟨[], trivial, Nat.zero_le _, hend⟩)
        · rw [List.concat_eq_append] at hw hlen hend
          rw [undirWalk_append_singleton] at hw
          rw [walkEnd_append] at hend
          subst hend
          refine Or.inr ⟨walkEnd s l', ?_, hw.2⟩
          refine (ih _).mpr ⟨l', hw.1, ?_, rfl⟩
          simp only [List.length_append, List.length_singleton] at hlen
          omega

/-- **C7.** `find_all_connected(start_id, max_hops)` returns exactly the
entities reachable from `start_id` in at most `max_hops` hops following
relationships in both directions, and the result always contains
`start_id`. -/
theorem claim_C7_find_all_connected (ops : List GraphOp) (s : String)
    (maxHops : Nat) :
    (∀ x, x ∈ (buildGraph ops).findAllConnected s maxHops ↔
      ∃ l : List String, undirWalk (opRels ops) s l ∧ l.length ≤ maxHops ∧
        walkEnd s l = x) ∧
    s ∈ (buildGraph ops).findAllConnected s maxHops := by
  have hmain : ∀ x, x ∈ (buildGraph ops).findAllConnected s maxHops ↔
      ballP (opRels ops) s maxHops x := by
    intro x
    have := facIter_spec ops s maxHops 0 [s] [s]
      (fun x => by simp [ballP]) (fun x => by simp [sphereP]) x
    simpa [KnowledgeGraph.findAllConnected] using this
  constructor
  · intro x
    rw [hmain x, ballP_iff_walk]
  · rw [hmain s]
    exact ballP_mono (Nat.zero_le _) rfl

/-!
## BFS shortest path (`KnowledgeGraph.shortest_path`)

The Python loop `while queue:` is modelled with a fuel parameter; the fuel
`len(relationships) + 2` is provably larger than the number of iterations
the loop can make (each iteration pops one queue entry, and at most
`len(relationships) + 1` entries are ever enqueued, since every enqueue
also adds a fresh node to `visited`).
-/

/-- The inner `for rel in self.get_outgoing(current_id):` scan of
`shortest_path`: return `path + [target_id]` at the first relationship
into the target, otherwise enqueue the unvisited targets. -/
def spScan (tgt : String) (path : List String) :
    List Relationship → List String → List (String × List String) →
      Option (List String) × List String × List (String × List String)
  | [], v, q => (none, v, q)
  | r :: rs, v, q =>
      if r.targetId = tgt then (some (path ++ [tgt]), v, q)
      else if r.targetId ∈ v then spScan tgt path rs v q
      else spScan tgt path rs (v ++ [r.targetId])
        (q ++ [(r.targetId, path ++ [r.targetId])])

/-- The `while queue:` loop of `shortest_path`. -/
def spLoop (g : KnowledgeGraph) (tgt : String) (maxDepth : Int) :
    Nat → List String → List (String × List String) → Option (List String)
  | 0, _, _ => none
  | _ + 1, _, [] => none
  | fuel + 1, v, (c, path) :: q =>
      if (path.length : Int) > maxDepth then spLoop g tgt maxDepth fuel v q
      else
        match spScan tgt path (g.getOutgoing c none) v q with
        | (some p, _, _) => some p
        | (none, v', q') => spLoop g tgt maxDepth fuel v' q'

/-- `KnowledgeGraph.shortest_path`. -/
def KnowledgeGraph.shortestPath (g : KnowledgeGraph) (src tgt : String)
    (maxDepth : Int) : Option (List String) :=
  if src = tgt then some [src]
  else spLoop g tgt maxDepth (g.relationships.length + 2) [src] [(src, [src])]

/-- A directed edge: some relationship goes from `a` to `b`. -/
def dirEdge (rels : List Relationship) (a b : String) : Prop :=
  ∃ r ∈ rels, r.sourceId = a ∧ r.targetId = b

/-- `dirWalk rels a l`: starting at `a`, the successive nodes of `l` are
each reached from the previous one by a directed edge. -/
def dirWalk (rels : List Relationship) : String → List String → Prop
  | _, [] => True
  | a, b :: rest => dirEdge rels a b ∧ dirWalk rels b rest

/-- `reachN rels a k x`: a directed walk of exactly `k` hops goes from `a`
to `x`. -/
def reachN (rels : List Relationship) (a : String) : Nat → String → Prop
  | 0, x => x = a
  | k + 1, x => ∃ y, reachN rels a k y ∧ dirEdge rels y x

theorem dirWalk_append_singleton (rels : List Relationship) (y : String) :
    ∀ (l : List String) (a : String),
      dirWalk rels a (l ++ [y]) ↔
        dirWalk rels a l ∧ dirEdge rels (walkEnd a l) y := by
  intro l
  induction l with
  | nil =>
      intro a
      show dirEdge rels a y ∧ True ↔ True ∧ dirEdge rels a y
      tauto
  | cons b rest ih =>
      intro a
      show dirEdge rels a b ∧ dirWalk rels b (rest ++ [y]) ↔
        (dirEdge rels a b ∧ dirWalk rels b rest) ∧ _
      rw [ih b]
      tauto

theorem reachN_iff_walk (rels : List Relationship) (a : String) :
    ∀ (k : Nat) (x : String),
      reachN rels a k x ↔
        ∃ l : List String, dirWalk rels a l ∧ l.length = k ∧
          walkEnd a l = x := by
  intro k
  induction k with
  | zero =>
      intro x
      constructor
      · rintro rfl; exact ⟨[], trivial, rfl, rfl⟩
      · rintro ⟨l, _, hlen, hend⟩
        rw [List.length_eq_zero.mp hlen] at hend
        exact hend.symm
  | succ k ih =>
      intro x
      constructor
      · rintro ⟨y, hy, he⟩
        obtain ⟨l, hw, hlen, hend⟩ := (ih y).mp hy
        refine ⟨l ++ [x], ?_, ?_, walkEnd_append x l a⟩
        · rw [dirWalk_append_singleton, hend]
          exact ⟨hw, he⟩
        · simp [hlen]
      · rintro ⟨l, hw, hlen, hend⟩
        rcases l.eq_nil_or_concat with rfl | ⟨l', y, rfl⟩
        · simp at hlen
        · rw [List.concat_eq_append] at hw hlen hend
          rw [dirWalk_append_singleton] at hw
          rw [walkEnd_append] at hend
          subst hend
          simp only [List.length_append, List.length_singleton] at hlen
          refine ⟨walkEnd a l', ?_, hw.2⟩
          exact (ih _).mpr ⟨l', hw.1, by omega, rfl⟩

theorem reachN_trans (rels : List Relationship) (a b c : String) (i : Nat) :
    ∀ j, reachN rels a i b → reachN rels b j c → reachN rels a (i + j) c := by
  intro j
  induction j generalizing c with
  | zero => rintro h rfl; exact h
  | succ j ih =>
      rintro h ⟨y, hy, he⟩
      exact ⟨y, ih y h hy, he⟩

theorem reachN_zero_iff (rels : List Relationship) (a x : String) :
    reachN rels a 0 x ↔ x = a := Iff.rfl

/-- What a `(none, …)` result of the scan tells us. -/
theorem spScan_none_spec (tgt : String) (path : List String) :
    ∀ (rs : List Relationship) (v : List String)
      (q : List (String × List String)) (v' : List String)
      (q' : List (String × List String)),
      spScan tgt path rs v q = (none, v', q') →
      (∀ r ∈ rs, r.targetId ≠ tgt) ∧
      ∃ new : List (String × List String),
        q' = q ++ new ∧ v' = v ++ new.map Prod.fst ∧
        (new.map Prod.fst).Nodup ∧
        (∀ e ∈ new, e.2 = path ++ [e.1] ∧ e.1 ∉ v ∧
          ∃ r ∈ rs, r.targetId = e.1) ∧
        (∀ r ∈ rs, r.targetId ∈ v ∨ r.targetId ∈ new.map Prod.fst) := by
  intro rs
  induction rs with
  | nil =>
      intro v q v' q' h
      rw [show spScan tgt path [] v q = (none, v, q) from rfl] at h
      have h' : v = v' ∧ q = q' := by
        simpa [Prod.ext_iff] using h
      exact ⟨by simp, [], by simp [← h'.2], by simp [← h'.1], by simp,
        by simp, by simp⟩
  | cons r rs ih =>
      intro v q v' q' h
      by_cases ht : r.targetId = tgt
      · rw [show spScan tgt path (r :: rs) v q =
          (some (path ++ [tgt]), v, q) from by simp [spScan, ht]] at h
        exact absurd (congrArg Prod.fst h) (by simp)
      · by_cases hv : r.targetId ∈ v
        · rw [show spScan tgt path (r :: rs) v q = spScan tgt path rs v q
            from by simp [spScan, ht, hv]] at h
          obtain ⟨h1, new, hq, hv', hnd, hent, hcov⟩ := ih v q v' q' h
          refine ⟨?_, new, hq, hv', hnd, ?_, ?_⟩
          · intro x hx
            rcases List.mem_cons.mp hx with rfl | hx'
            · exact ht
            · exact h1 x hx'
          · intro e he
            obtain ⟨h1e, h2e, r', hr', ht'⟩ := hent e he
            exact ⟨h1e, h2e, r', List.mem_cons_of_mem _ hr', ht'⟩
          · intro r' hr'
            rcases List.mem_cons.mp hr' with rfl | hr''
            · exact Or.inl hv
            · exact hcov r' hr''
        · rw [show spScan tgt path (r :: rs) v q = spScan tgt path rs
            (v ++ [r.targetId]) (q ++ [(r.targetId, path ++ [r.targetId])])
            from by simp [spScan, ht, hv]] at h
          obtain ⟨h1, new, hq, hv', hnd, hent, hcov⟩ :=
            ih (v ++ [r.targetId]) (q ++ [(r.targetId, path ++ [r.targetId])])
              v' q' h
          refine ⟨?_, (r.targetId, path ++ [r.targetId]) :: new, ?_, ?_, ?_,
            ?_, ?_⟩
          · intro x hx
            rcases List.mem_cons.mp hx with rfl | hx'
            · exact ht
            · exact h1 x hx'
          · simpa using hq
          · simpa using hv'
          · rw [List.map_cons]
            refine List.nodup_cons.mpr ⟨?_, hnd⟩
            intro hmem
            obtain ⟨e, he, hfst⟩ := List.mem_map.mp hmem
            exact (hent e he).2.1 (by simp [hfst])
          · intro e he
            rcases List.mem_cons.mp he with rfl | he'
            · exact ⟨rfl, hv, r, by simp⟩
            · obtain ⟨h1e, h2e, r', hr', ht'⟩ := hent e he'
              refine ⟨h1e, fun hc => h2e (by simp [hc]), r',
                List.mem_cons_of_mem _ hr', ht'⟩
          · intro r' hr'
            rcases List.mem_cons.mp hr' with rfl | hr''
            · exact Or.inr (by simp)
            · rcases hcov r' hr'' with hin | hin
              · rcases List.mem_append.mp hin with h' | h'
                · exact Or.inl h'
                · exact Or.inr (by simp [List.mem_singleton.mp h'])
              · exact Or.inr (by simp [hin])

/-- What a `(some p, …)` result of the scan tells us. -/
theorem spScan_some_spec (tgt : String) (path : List String) :
    ∀ (rs : List Relationship) (v : List String)
      (q : List (String × List String)) (p : List String) v' q',
      spScan tgt path rs v q = (some p, v', q') →
      p = path ++ [tgt] ∧ ∃ r ∈ rs, r.targetId = tgt := by
  intro rs
  induction rs with
  | nil =>
      intro v q p v' q' h
      rw [show spScan tgt path [] v q = (none, v, q) from rfl] at h
      exact absurd (congrArg Prod.fst h) (by simp)
  | cons r rs ih =>
      intro v q p v' q' h
      by_cases ht : r.targetId = tgt
      · rw [show spScan tgt path (r :: rs) v q =
          (some (path ++ [tgt]), v, q) from by simp [spScan, ht]] at h
        have := congrArg Prod.fst h
        simp at this
        exact ⟨this.symm, r, by simp, ht⟩
      · by_cases hv : r.targetId ∈ v
        · rw [show spScan tgt path (r :: rs) v q = spScan tgt path rs v q
            from by simp [spScan, ht, hv]] at h
          obtain ⟨h1, r', hr', ht'⟩ := ih v q p v' q' h
          exact ⟨h1, r', List.mem_cons_of_mem _ hr', ht'⟩
        · rw [show spScan tgt path (r :: rs) v q = spScan tgt path rs
            (v ++ [r.targetId]) (q ++ [(r.targetId, path ++ [r.targetId])])
            from by simp [spScan, ht, hv]] at h
          obtain ⟨h1, r', hr', ht'⟩ := ih _ _ p v' q' h
          exact ⟨h1, r', List.mem_cons_of_mem _ hr', ht'⟩

/-- `x` is at hop distance exactly `j` from `a`: reachable in `j` hops and
in no smaller number of hops. -/
def isMinReach (rels : List Relationship) (a : String) (j : Nat)
    (x : String) : Prop :=
  reachN rels a j x ∧ ∀ i < j, ¬ reachN rels a i x

theorem isMinReach_le {rels : List Relationship} {a : String} {j : Nat}
    {x : String} (h : isMinReach rels a j x) {k : Nat}
    (hk : reachN rels a k x) : j ≤ k :=
  Nat.le_of_not_lt fun hl => h.2 k hl hk

theorem isMinReach_unique {rels : List Relationship} {a : String}
    {j j' : Nat} {x : String} (h : isMinReach rels a j x)
    (h' : isMinReach rels a j' x) : j = j' :=
  Nat.le_antisymm (isMinReach_le h h'.1) (isMinReach_le h' h.1)

theorem exists_min_reach {rels : List Relationship} {a x : String}
    (h : ∃ j, reachN rels a j x) : ∃ D, isMinReach rels a D x := by
  classical
  exact ⟨Nat.find h, Nat.find_spec h, fun i hi => Nat.find_min h hi⟩

theorem reachN_succ_front (rels : List Relationship) (a : String) :
    ∀ (k : Nat) (x : String),
      reachN rels a (k + 1) x ↔
        ∃ y, dirEdge rels a y ∧ reachN rels y k x := by
  intro k
  induction k with
  | zero =>
      intro x
      constructor
      · rintro ⟨y, rfl, he⟩
        exact ⟨x, he, rfl⟩
      · rintro ⟨y, he, rfl⟩
        exact ⟨a, rfl, he⟩
  | succ k ih =>
      intro x
      constructor
      · rintro ⟨z, hz, he⟩
        obtain ⟨y, hay, hyz⟩ := (ih z).mp hz
        exact ⟨y, hay, z, hyz, he⟩
      · rintro ⟨y, hay, z, hyz, he⟩
        exact ⟨z, (ih z).mpr ⟨y, hay, hyz⟩, he⟩

theorem getOutgoing_none_buildGraph (ops : List GraphOp) (c : String) :
    (buildGraph ops).getOutgoing c none =
      (opRels ops).filter (fun r => r.sourceId == c) := by
  show (buildGraph ops).outgoing c = _
  rw [(indexInv_buildGraph ops).1 c, relationships_buildGraph]

theorem dirEdge_iff_filter (ops : List GraphOp) (c y : String) :
    dirEdge (opRels ops) c y ↔
      ∃ r ∈ (opRels ops).filter (fun r => r.sourceId == c),
        r.targetId = y := by
  constructor
  · rintro ⟨r, hr, hs, ht⟩
    exact ⟨r, List.mem_filter.mpr ⟨hr, by simp [hs]⟩, ht⟩
  · rintro ⟨r, hr, ht⟩
    obtain ⟨hr', hs⟩ := List.mem_filter.mp hr
    exact ⟨r, hr', by simpa using hs, ht⟩

/-- The loop invariant of `shortest_path`'s BFS, for a graph built by `ops`,
source `src`, target `tgt` (with `src ≠ tgt`, so the target is never marked
visited) and depth bound `d`. -/
structure SPInv (ops : List GraphOp) (src tgt : String) (d : Int)
    (v : List String) (q : List (String × List String)) : Prop where
  src_mem : src ∈ v
  tgt_not_mem : tgt ∉ v
  v_nodup : v.Nodup
  v_sub : ∀ x ∈ v, x = src ∨ ∃ r ∈ opRels ops, r.targetId = x
  v_reach : ∀ m ∈ v, ∃ j, isMinReach (opRels ops) src j m
  q_sub_v : ∀ e ∈ q, e.1 ∈ v
  q_nodes_nodup : (q.map Prod.fst).Nodup
  q_path : ∀ e ∈ q, ∃ l, e.2 = src :: l ∧ dirWalk (opRels ops) src l ∧
      walkEnd src l = e.1 ∧ isMinReach (opRels ops) src l.length e.1
  q_sorted : List.Pairwise
      (fun e e' : String × List String => e.2.length ≤ e'.2.length) q
  q_span : ∀ hd ∈ q.head?, ∀ e ∈ q, e.2.length ≤ hd.2.length + 1
  q_bound : ∀ e ∈ q, e.2.length = 1 ∨ (e.2.length : Int) ≤ d + 1
  unvisited_far : ∀ hd ∈ q.head?, ∀ x, x ∉ v → ∀ j,
      reachN (opRels ops) src j x → hd.2.length ≤ j
  popped_near : ∀ hd ∈ q.head?, ∀ m ∈ v, m ∉ q.map Prod.fst → ∀ j,
      isMinReach (opRels ops) src j m → j + 1 ≤ hd.2.length
  processed : ∀ m ∈ v, m ∈ q.map Prod.fst ∨
      (∀ r ∈ opRels ops, r.sourceId = m →
        r.targetId ≠ tgt ∧ r.targetId ∈ v) ∨
      (∃ j, isMinReach (opRels ops) src j m ∧ d ≤ (j : Int))

theorem spInv_init (ops : List GraphOp) (src tgt : String) (d : Int)
    (hne : src ≠ tgt) : SPInv ops src tgt d [src] [(src, [src])] where
  src_mem := by simp
  tgt_not_mem := by simp [Ne.symm hne]
  v_nodup := by simp
  v_sub := by intro x hx; exact Or.inl (List.mem_singleton.mp hx)
  v_reach := by
    intro m hm
    rw [List.mem_singleton.mp hm]
    exact ⟨0, rfl, by intro i hi hr; simp at hi⟩
  q_sub_v := by intro e he; simp [List.mem_singleton.mp he]
  q_nodes_nodup := by simp
  q_path := by
    intro e he
    rw [List.mem_singleton.mp he]
    exact ⟨[], rfl, trivial, rfl, rfl, by intro i hi hr; simp at hi⟩
  q_sorted := by simp
  q_span := by
    intro hd hhd e he
    rw [List.mem_singleton.mp he]
    simp
  q_bound := by intro e he; rw [List.mem_singleton.mp he]; exact Or.inl rfl
  unvisited_far := by
    intro hd hhd x hx j hj
    rw [show hd = (src, [src]) from (by simpa using hhd : _ = hd).symm]
    cases j with
    | zero => exact absurd (by simpa using hj) (by simpa using hx)
    | succ j => simp
  popped_near := by
    intro hd hhd m hm hnot j hj
    exact absurd (by simpa using hm) (by simpa using hnot)
  processed := by
    intro m hm
    rw [List.mem_singleton.mp hm]
    exact Or.inl (by simp)

theorem spInv_skip {ops : List GraphOp} {src tgt : String} {d : Int}
    {v : List String} {c : String} {pth : List String}
    {q : List (String × List String)}
    (inv : SPInv ops src tgt d v ((c, pth) :: q))
    (hskip : (pth.length : Int) > d) : SPInv ops src tgt d v q := by
  obtain ⟨l, hl0, -, -, hmin0⟩ := inv.q_path (c, pth) (by simp)
  have hl : pth = src :: l := hl0
  have hmin : isMinReach (opRels ops) src l.length c := hmin0
  have hpl : pth.length = l.length + 1 := by rw [hl]; rfl
  have hLpos : 1 ≤ pth.length := by omega
  have hall : ∀ e ∈ q, e.2.length = pth.length := by
    intro e he
    have hle : pth.length ≤ e.2.length := by
      have := inv.q_sorted
      rw [List.pairwise_cons] at this
      exact this.1 e he
    rcases inv.q_bound e (by simp [he]) with h1 | h1
    · omega
    · omega
  constructor
  case src_mem => exact inv.src_mem
  case tgt_not_mem => exact inv.tgt_not_mem
  case v_nodup => exact inv.v_nodup
  case v_sub => exact inv.v_sub
  case v_reach => exact inv.v_reach
  case q_sub_v => intro e he; exact inv.q_sub_v e (by simp [he])
  case q_nodes_nodup =>
    have := inv.q_nodes_nodup
    rw [List.map_cons, List.nodup_cons] at this
    exact this.2
  case q_path => intro e he; exact inv.q_path e (by simp [he])
  case q_sorted => exact (List.pairwise_cons.mp inv.q_sorted).2
  case q_span =>
    intro hd hhd e he
    have h1 := hall e he
    have h2 := hall hd (List.mem_of_mem_head? hhd)
    omega
  case q_bound => intro e he; exact inv.q_bound e (by simp [he])
  case unvisited_far =>
    intro hd hhd x hx j hj
    have h2 := hall hd (List.mem_of_mem_head? hhd)
    have h3 : pth.length ≤ j := inv.unvisited_far (c, pth) rfl x hx j hj
    omega
  case popped_near =>
    intro hd hhd m hm hnot j hj
    have h2 := hall hd (List.mem_of_mem_head? hhd)
    by_cases hc : m = c
    · subst hc
      have := isMinReach_unique hj hmin
      omega
    · have hnot' : m ∉ ((c, pth) :: q).map Prod.fst := by
        rw [List.map_cons]
        intro hmem
        rcases List.mem_cons.mp hmem with h' | h'
        · exact hc h'
        · exact hnot h'
      have h4 : j + 1 ≤ pth.length :=
        inv.popped_near (c, pth) rfl m hm hnot' j hj
      omega
  case processed =>
    intro m hm
    rcases inv.processed m hm with hmem | hexp | hfar
    · rw [List.map_cons] at hmem
      rcases List.mem_cons.mp hmem with rfl | h'
      · refine Or.inr (Or.inr ⟨l.length, hmin, ?_⟩)
        omega
      · exact Or.inl h'
    · exact Or.inr (Or.inl hexp)
    · exact Or.inr (Or.inr hfar)

theorem spInv_expand {ops : List GraphOp} {src tgt : String} {d : Int}
    {v : List String} {c : String} {pth : List String}
    {q v' q'} (inv : SPInv ops src tgt d v ((c, pth) :: q))
    (hnoskip : ¬ ((pth.length : Int) > d))
    (hscan : spScan tgt pth ((buildGraph ops).getOutgoing c none) v q =
      (none, v', q')) : SPInv ops src tgt d v' q' := by
  rw [getOutgoing_none_buildGraph] at hscan
  obtain ⟨hnt, new, hq', hv', hnd, hent, hcov⟩ :=
    spScan_none_spec tgt pth _ v q v' q' hscan
  obtain ⟨l, hl0, hwk0, hend0, hmin0⟩ := inv.q_path (c, pth) (by simp)
  have hl : pth = src :: l := hl0
  have hwk : dirWalk (opRels ops) src l := hwk0
  have hend : walkEnd src l = c := hend0
  have hmin : isMinReach (opRels ops) src l.length c := hmin0
  have hpl : pth.length = l.length + 1 := by rw [hl]; rfl
  have hLd : (pth.length : Int) ≤ d := by omega
  have hnew_edge : ∀ e ∈ new, dirEdge (opRels ops) c e.1 := by
    intro e he
    obtain ⟨-, -, r, hrc, hrt⟩ := hent e he
    obtain ⟨hr, hs⟩ := List.mem_filter.mp hrc
    exact ⟨r, hr, by simpa using hs, hrt⟩
  have hnew_notv : ∀ e ∈ new, e.1 ∉ v := fun e he => (hent e he).2.1
  have hnew_min : ∀ e ∈ new, isMinReach (opRels ops) src pth.length e.1 := by
    intro e he
    constructor
    · rw [hpl]
      exact ⟨c, hmin.1, hnew_edge e he⟩
    · intro i hi hr
      have h5 : pth.length ≤ i :=
        inv.unvisited_far (c, pth) rfl e.1 (hnew_notv e he) i hr
      omega
  have hnew_len : ∀ e ∈ new, e.2.length = pth.length + 1 := by
    intro e he
    rw [(hent e he).1]
    simp
  have hnew_tgt : ∀ e ∈ new, e.1 ≠ tgt := by
    intro e he
    obtain ⟨-, -, r, hrc, hrt⟩ := hent e he
    exact hrt ▸ hnt r hrc
  have hq_le : ∀ e ∈ q, pth.length ≤ e.2.length :=
    (List.pairwise_cons.mp inv.q_sorted).1
  have hq_ub : ∀ e ∈ q, e.2.length ≤ pth.length + 1 := by
    intro e he
    exact inv.q_span (c, pth) rfl e (by simp [he])
  have hq'_nodes : q'.map Prod.fst = q.map Prod.fst ++ new.map Prod.fst := by
    rw [hq', List.map_append]
  have hqnodes_v : ∀ x ∈ q.map Prod.fst, x ∈ v := by
    intro x hx
    obtain ⟨e, he, rfl⟩ := List.mem_map.mp hx
    exact inv.q_sub_v e (by simp [he])
  have hhd'_ge : ∀ hd' ∈ q'.head?, pth.length ≤ hd'.2.length ∧
      hd'.2.length ≤ pth.length + 1 := by
    intro hd' hhd'
    rw [hq'] at hhd'
    cases q with
    | nil =>
        simp only [List.nil_append] at hhd'
        cases new with
        | nil => simp at hhd'
        | cons e n' =>
            have heq : e = hd' := by simpa using hhd'
            have hlen := hnew_len e (by simp)
            rw [heq] at hlen
            omega
    | cons e0 q0 =>
        have heq : e0 = hd' := by simpa using hhd'
        have h1 := hq_le e0 (by simp)
        have h2 := hq_ub e0 (by simp)
        rw [heq] at h1 h2
        omega
  have hsorted' : List.Pairwise
      (fun e e' : String × List String => e.2.length ≤ e'.2.length) q' := by
    rw [hq', List.pairwise_append]
    refine ⟨(List.pairwise_cons.mp inv.q_sorted).2, ?_, ?_⟩
    · apply List.pairwise_of_forall_mem_list
      intro a ha b hb
      rw [hnew_len a ha, hnew_len b hb]
    · intro a ha b hb
      rw [hnew_len b hb]
      exact hq_ub a ha
  have hheadmin : ∀ hd' ∈ q'.head?, ∀ e ∈ q', hd'.2.length ≤ e.2.length := by
    intro hd' hhd' e he
    cases q' with
    | nil => simp at he
    | cons a t =>
        have ha : a = hd' := by simpa using hhd'
        subst ha
        rcases List.mem_cons.mp he with rfl | h'
        · exact Nat.le_refl _
        · exact (List.pairwise_cons.mp hsorted').1 e h'
  constructor
  case src_mem => rw [hv']; exact List.mem_append_left _ inv.src_mem
  case tgt_not_mem =>
    rw [hv']
    intro h
    rcases List.mem_append.mp h with h' | h'
    · exact inv.tgt_not_mem h'
    · obtain ⟨e, he, heq⟩ := List.mem_map.mp h'
      exact hnew_tgt e he heq
  case v_nodup =>
    rw [hv', List.nodup_append]
    refine ⟨inv.v_nodup, hnd, ?_⟩
    intro a ha hmem
    obtain ⟨e, he, rfl⟩ := List.mem_map.mp hmem
    exact hnew_notv e he ha
  case v_sub =>
    rw [hv']
    intro x hx
    rcases List.mem_append.mp hx with h' | h'
    · exact inv.v_sub x h'
    · obtain ⟨e, he, rfl⟩ := List.mem_map.mp h'
      obtain ⟨-, -, r, hrc, hrt⟩ := hent e he
      exact Or.inr ⟨r, List.mem_of_mem_filter hrc, hrt⟩
  case v_reach =>
    rw [hv']
    intro m hm
    rcases List.mem_append.mp hm with h' | h'
    · exact inv.v_reach m h'
    · obtain ⟨e, he, rfl⟩ := List.mem_map.mp h'
      exact ⟨pth.length, hnew_min e he⟩
  case q_sub_v =>
    intro e he
    rw [hq'] at he
    rw [hv']
    rcases List.mem_append.mp he with h' | h'
    · exact List.mem_append_left _ (inv.q_sub_v e (by simp [h']))
    · exact List.mem_append_right _ (List.mem_map_of_mem Prod.fst h')
  case q_nodes_nodup =>
    rw [hq'_nodes, List.nodup_append]
    have := inv.q_nodes_nodup
    rw [List.map_cons, List.nodup_cons] at this
    refine ⟨this.2, hnd, ?_⟩
    intro a ha hmem
    obtain ⟨e, he, rfl⟩ := List.mem_map.mp hmem
    exact hnew_notv e he (hqnodes_v _ ha)
  case q_path =>
    intro e he
    rw [hq'] at he
    rcases List.mem_append.mp he with h' | h'
    · exact inv.q_path e (by simp [h'])
    · refine ⟨l ++ [e.1], ?_, ?_, walkEnd_append e.1 l src, ?_⟩
      · rw [(hent e h').1, hl]
        simp
      · rw [dirWalk_append_singleton, hend]
        exact ⟨hwk, hnew_edge e h'⟩
      · rw [show (l ++ [e.1]).length = pth.length from by simp [hpl]]
        exact hnew_min e h'
  case q_sorted => exact hsorted'
  case q_span =>
    intro hd' hhd' e he
    obtain ⟨hge, hle⟩ := hhd'_ge hd' hhd'
    rw [hq'] at he
    rcases List.mem_append.mp he with h' | h'
    · have := hq_ub e h'
      omega
    · have := hnew_len e h'
      omega
  case q_bound =>
    intro e he
    rw [hq'] at he
    rcases List.mem_append.mp he with h' | h'
    · exact inv.q_bound e (by simp [h'])
    · refine Or.inr ?_
      rw [hnew_len e h']
      push_cast
      omega
  case unvisited_far =>
    intro hd' hhd' x hx j hj
    have hxv : x ∉ v := by
      rw [hv'] at hx
      exact fun h => hx (List.mem_append_left _ h)
    have hfar : pth.length ≤ j := inv.unvisited_far (c, pth) rfl x hxv j hj
    obtain ⟨hge, hle⟩ := hhd'_ge hd' hhd'
    by_cases hcase : hd'.2.length ≤ j
    · exact hcase
    · exfalso
      have hj_eq : j = pth.length := by omega
      rw [hj_eq, hpl] at hj
      obtain ⟨y, hy, he2⟩ := hj
      have hyv : y ∈ v := by
        by_contra hynv
        have h6 : pth.length ≤ l.length :=
          inv.unvisited_far (c, pth) rfl y hynv l.length hy
        omega
      obtain ⟨jy, hjy⟩ := inv.v_reach y hyv
      have hjyle : jy ≤ l.length := isMinReach_le hjy hy
      have hxnv' : x ∉ v' := by
        rw [hv'] at hx ⊢
        exact hx
      rcases inv.processed y hyv with hmem | hexp | hfarc
      · rw [List.map_cons] at hmem
        rcases List.mem_cons.mp hmem with rfl | hyq
        · obtain ⟨r, hr, hsy, htx⟩ := he2
          have hrc : r ∈ (opRels ops).filter
              (fun r => r.sourceId == y) := by
            refine List.mem_filter.mpr ⟨hr, by simp [hsy]⟩
          rcases hcov r hrc with hin | hin
          · exact hxv (htx ▸ hin)
          · refine hxnv' ?_
            rw [hv']
            exact List.mem_append_right _ (htx ▸ hin)
        · obtain ⟨ey, hey, heyfst⟩ := List.mem_map.mp hyq
          obtain ⟨ly, hly0, -, -, hlymin0⟩ := inv.q_path ey (by simp [hey])
          have hlymin : isMinReach (opRels ops) src ly.length y :=
            heyfst ▸ hlymin0
          have : ly.length = jy := isMinReach_unique hlymin hjy
          have heylen : ey.2.length = ly.length + 1 := by rw [hly0]; rfl
          have hmem' : ey ∈ q' := by
            rw [hq']
            exact List.mem_append_left _ hey
          have := hheadmin hd' hhd' ey hmem'
          omega
      · obtain ⟨r, hr, hsy, htx⟩ := he2
        exact hxv (htx ▸ (hexp r hr hsy).2)
      · obtain ⟨jc, hjc, hjcd⟩ := hfarc
        have : jc = jy := isMinReach_unique hjc hjy
        omega
  case popped_near =>
    intro hd' hhd' m hm hnot j hj
    obtain ⟨hge, hle⟩ := hhd'_ge hd' hhd'
    rw [hv'] at hm
    rcases List.mem_append.mp hm with hmv | hmn
    · by_cases hc : m = c
      · subst hc
        have := isMinReach_unique hj hmin
        omega
      · have hnot' : m ∉ ((c, pth) :: q).map Prod.fst := by
          rw [List.map_cons]
          intro hmem
          rcases List.mem_cons.mp hmem with h' | h'
          · exact hc h'
          · exact hnot (hq'_nodes ▸ List.mem_append_left _ h')
        have h7 : j + 1 ≤ pth.length :=
          inv.popped_near (c, pth) rfl m hmv hnot' j hj
        omega
    · exfalso
      exact hnot (hq'_nodes ▸ List.mem_append_right _ hmn)
  case processed =>
    intro m hm
    rw [hv'] at hm
    rcases List.mem_append.mp hm with hmv | hmn
    · rcases inv.processed m hmv with hmem | hexp | hfarc
      · rw [List.map_cons] at hmem
        rcases List.mem_cons.mp hmem with rfl | hyq
        · refine Or.inr (Or.inl ?_)
          intro r hr hrs
          have hrc : r ∈ (opRels ops).filter
              (fun x => x.sourceId == m) := List.mem_filter.mpr
            ⟨hr, by simp [hrs]⟩
          refine ⟨hnt r hrc, ?_⟩
          rw [hv']
          rcases hcov r hrc with hin | hin
          · exact List.mem_append_left _ hin
          · exact List.mem_append_right _ hin
        · exact Or.inl (hq'_nodes ▸ List.mem_append_left _ hyq)
      · refine Or.inr (Or.inl ?_)
        intro r hr hrs
        refine ⟨(hexp r hr hrs).1, ?_⟩
        rw [hv']
        exact List.mem_append_left _ (hexp r hr hrs).2
      · exact Or.inr (Or.inr hfarc)
    · exact Or.inl (hq'_nodes ▸ List.mem_append_right _ hmn)

theorem spInv_v_card {ops : List GraphOp} {src tgt : String} {d : Int}
    {v : List String} {q : List (String × List String)}
    (inv : SPInv ops src tgt d v q) :
    v.length ≤ (opRels ops).length + 1 := by
  have hsub : ∀ x ∈ v,
      x ∈ src :: (opRels ops).map Relationship.targetId := by
    intro x hx
    rcases inv.v_sub x hx with rfl | ⟨r, hr, hrt⟩
    · simp
    · apply List.mem_cons_of_mem
      rw [← hrt]
      exact List.mem_map_of_mem _ hr
  calc v.length
      = v.toFinset.card := (List.toFinset_card_of_nodup inv.v_nodup).symm
    _ ≤ (src :: (opRels ops).map Relationship.targetId).toFinset.card := by
        apply Finset.card_le_card
        intro x hx
        rw [List.mem_toFinset] at hx ⊢
        exact hsub x hx
    _ ≤ (src :: (opRels ops).map Relationship.targetId).length :=
        List.toFinset_card_le _
    _ = (opRels ops).length + 1 := by simp

theorem spLoop_sound (ops : List GraphOp) (src tgt : String) (d : Int) :
    ∀ (fuel : Nat) (v : List String) (q : List (String × List String))
      (p : List String), SPInv ops src tgt d v q →
      spLoop (buildGraph ops) tgt d fuel v q = some p →
      ∃ l, p = src :: l ∧ dirWalk (opRels ops) src l ∧ walkEnd src l = tgt ∧
        reachN (opRels ops) src l.length tgt ∧
        (∀ j < l.length, ¬ reachN (opRels ops) src j tgt) ∧
        (l.length : Int) ≤ d := by
  intro fuel
  induction fuel with
  | zero =>
      intro v q p _ h
      have h' : (none : Option (List String)) = some p := h
      exact Option.noConfusion h'
  | succ fuel ih =>
      intro v q p inv h
      cases q with
      | nil =>
          have h' : (none : Option (List String)) = some p := h
          exact Option.noConfusion h'
      | cons e0 q =>
          obtain ⟨c, pth⟩ := e0
          rw [show spLoop (buildGraph ops) tgt d (fuel + 1) v
              ((c, pth) :: q) =
            (if (pth.length : Int) > d then
              spLoop (buildGraph ops) tgt d fuel v q
            else
              match spScan tgt pth ((buildGraph ops).getOutgoing c none)
                  v q with
              | (some p, _, _) => some p
              | (none, v', q') => spLoop (buildGraph ops) tgt d fuel v' q')
            from rfl] at h
          by_cases hskip : (pth.length : Int) > d
          · rw [if_pos hskip] at h
            exact ih v q p (spInv_skip inv hskip) h
          · rw [if_neg hskip] at h
            rcases hsc : spScan tgt pth ((buildGraph ops).getOutgoing c none)
              v q with ⟨res, v', q'⟩
            rw [hsc] at h
            cases res with
            | some p0 =>
                have hp : some p0 = some p := h
                obtain rfl : p0 = p := Option.some.injEq .. ▸ hp
                obtain ⟨hpeq, r, hr, hrt⟩ :=
                  spScan_some_spec tgt pth _ v q p0 v' q' hsc
                obtain ⟨l, hl0, hwk0, hend0, hmin0⟩ :=
                  inv.q_path (c, pth) (by simp)
                have hl : pth = src :: l := hl0
                have hend : walkEnd src l = c := hend0
                have hmin : isMinReach (opRels ops) src l.length c := hmin0
                have hpl : pth.length = l.length + 1 := by rw [hl]; rfl
                rw [getOutgoing_none_buildGraph] at hr
                obtain ⟨hrmem, hrs⟩ := List.mem_filter.mp hr
                have hedge : dirEdge (opRels ops) c tgt :=
                  ⟨r, hrmem, by simpa using hrs, hrt⟩
                refine ⟨l ++ [tgt], ?_, ?_, walkEnd_append tgt l src, ?_, ?_,
                  ?_⟩
                · rw [hpeq, hl]; simp
                · rw [dirWalk_append_singleton, hend]
                  exact ⟨hwk0, hedge⟩
                · rw [show (l ++ [tgt]).length = l.length + 1 from by simp]
                  exact ⟨c, hmin.1, hedge⟩
                · intro j hj hrj
                  have h5 : pth.length ≤ j :=
                    inv.unvisited_far (c, pth) rfl tgt inv.tgt_not_mem j hrj
                  simp only [List.length_append, List.length_singleton] at hj
                  omega
                · simp only [List.length_append, List.length_singleton]
                  push_cast
                  omega
            | none =>
                have h' : spLoop (buildGraph ops) tgt d fuel v' q' = some p :=
                  h
                exact ih v' q' p (spInv_expand inv hskip hsc) h'

theorem spLoop_complete (ops : List GraphOp) (src tgt : String) (d : Int)
    (D : Nat) (hD : reachN (opRels ops) src D tgt)
    (hDmin : ∀ j < D, ¬ reachN (opRels ops) src j tgt)
    (hDd : (D : Int) ≤ d) :
    ∀ (fuel : Nat) (v : List String) (q : List (String × List String)),
      SPInv ops src tgt d v q →
      (∃ e ∈ q, ∃ k, reachN (opRels ops) e.1 k tgt ∧
        k + (e.2.length - 1) ≤ D) →
      q.length + ((opRels ops).length + 1 - v.length) < fuel →
      ∃ p, spLoop (buildGraph ops) tgt d fuel v q = some p := by
  intro fuel
  induction fuel with
  | zero =>
      intro v q _ _ hμ
      exact absurd hμ (Nat.not_lt_zero _)
  | succ fuel ih =>
      intro v q inv hW hμ
      obtain ⟨e, he, k, hk, hkle⟩ := hW
      cases q with
      | nil => simp at he
      | cons e0 q =>
          obtain ⟨c, pth⟩ := e0
          obtain ⟨l, hl0, hwk0, hend0, hmin0⟩ := inv.q_path (c, pth) (by simp)
          have hl : pth = src :: l := hl0
          have hmin : isMinReach (opRels ops) src l.length c := hmin0
          have hpl : pth.length = l.length + 1 := by rw [hl]; rfl
          have hkpos : 1 ≤ k := by
            rcases Nat.eq_zero_or_pos k with rfl | h'
            · exfalso
              have : tgt = e.1 := hk
              exact inv.tgt_not_mem (this ▸ inv.q_sub_v e he)
            · exact h'
          have hfrontle : pth.length ≤ e.2.length := by
            rcases List.mem_cons.mp he with rfl | h'
            · exact Nat.le_refl _
            · exact (List.pairwise_cons.mp inv.q_sorted).1 e h'
          have helen : 1 ≤ e.2.length := by
            obtain ⟨le_, hle0, -, -, -⟩ := inv.q_path e he
            rw [show e.2 = src :: le_ from hle0]
            simp
          have hnoskip : ¬ ((pth.length : Int) > d) := by
            intro hgt
            omega
          rw [show spLoop (buildGraph ops) tgt d (fuel + 1) v
              ((c, pth) :: q) =
            (if (pth.length : Int) > d then
              spLoop (buildGraph ops) tgt d fuel v q
            else
              match spScan tgt pth ((buildGraph ops).getOutgoing c none)
                  v q with
              | (some p, _, _) => some p
              | (none, v', q') => spLoop (buildGraph ops) tgt d fuel v' q')
            from rfl, if_neg hnoskip]
          rcases hsc : spScan tgt pth ((buildGraph ops).getOutgoing c none)
            v q with ⟨res, v', q'⟩
          cases res with
          | some p0 => exact ⟨p0, rfl⟩
          | none =>
              have inv' := spInv_expand inv hnoskip hsc
              have hscan2 := hsc
              rw [getOutgoing_none_buildGraph] at hscan2
              obtain ⟨hnt, new, hq', hv', hnd, hent, hcov⟩ :=
                spScan_none_spec tgt pth _ v q v' q' hscan2
              have hq'_nodes : q'.map Prod.fst =
                  q.map Prod.fst ++ new.map Prod.fst := by
                rw [hq', List.map_append]
              have hμ' : q'.length +
                  ((opRels ops).length + 1 - v'.length) < fuel := by
                have hlv : v'.length = v.length + new.length := by
                  rw [hv']; simp
                have hlq : q'.length = q.length + new.length := by
                  rw [hq']; simp
                have hcard := spInv_v_card inv'
                have hcard0 := spInv_v_card inv
                simp only [List.length_cons] at hμ
                omega
              have hW' : ∃ e' ∈ q', ∃ k',
                  reachN (opRels ops) e'.1 k' tgt ∧
                  k' + (e'.2.length - 1) ≤ D := by
                rcases List.mem_cons.mp he with rfl | htail
                · -- the witness was the front entry just popped
                  have hkc : reachN (opRels ops) c k tgt := hk
                  obtain ⟨k', rfl⟩ : ∃ k', k = k' + 1 :=
                    ⟨k - 1, by omega⟩
                  obtain ⟨y, hcy, hyk⟩ :=
                    (reachN_succ_front (opRels ops) c k' tgt).mp hkc
                  obtain ⟨r, hrf, hrt⟩ :=
                    (dirEdge_iff_filter ops c y).mp hcy
                  have hyv' : y ∈ v' := by
                    rw [hv']
                    rcases hcov r hrf with hin | hin
                    · exact List.mem_append_left _ (hrt ▸ hin)
                    · exact List.mem_append_right _ (hrt ▸ hin)
                  obtain ⟨jy, hjy⟩ := inv'.v_reach y hyv'
                  have hreachy : reachN (opRels ops) src (l.length + 1) y :=
                    ⟨c, hmin.1, hcy⟩
                  have hjyle : jy ≤ l.length + 1 := isMinReach_le hjy hreachy
                  have hDle : D ≤ jy + k' := by
                    by_contra hlt
                    exact hDmin _ (by omega)
                      (reachN_trans (opRels ops) src y tgt jy k' hjy.1 hyk)
                  have hkle' : k' + 1 + (pth.length - 1) ≤ D := hkle
                  have hjy_eq : jy = l.length + 1 := by omega
                  by_cases hyq : y ∈ q'.map Prod.fst
                  · obtain ⟨ey, heyq, heyfst⟩ := List.mem_map.mp hyq
                    obtain ⟨ly, hly0, -, -, hlymin0⟩ := inv'.q_path ey heyq
                    have hlymin : isMinReach (opRels ops) src ly.length y :=
                      heyfst ▸ hlymin0
                    have hlyjy : ly.length = jy := isMinReach_unique hlymin hjy
                    have heylen : ey.2.length = ly.length + 1 := by
                      rw [show ey.2 = src :: ly from hly0]; rfl
                    refine ⟨ey, heyq, k', heyfst ▸ hyk, ?_⟩
                    omega
                  · exfalso
                    have hyvv : y ∈ v := by
                      rw [hv'] at hyv'
                      rcases List.mem_append.mp hyv' with h' | h'
                      · exact h'
                      · exact absurd (hq'_nodes ▸ List.mem_append_right
                          (q.map Prod.fst) h') hyq
                    have hynotq : y ∉ ((c, pth) :: q).map Prod.fst := by
                      rw [List.map_cons]
                      intro hmem
                      rcases List.mem_cons.mp hmem with h' | h'
                      · rw [h'] at hjy
                        have := isMinReach_unique hjy hmin
                        omega
                      · exact hyq (hq'_nodes ▸ List.mem_append_left _ h')
                    have h7 : jy + 1 ≤ pth.length :=
                      inv.popped_near (c, pth) rfl y hyvv hynotq jy hjy
                    omega
                · refine ⟨e, ?_, k, hk, hkle⟩
                  rw [hq']
                  exact List.mem_append_left _ htail
              exact ih v' q' inv' hW' hμ'

/-- **C1.** `shortest_path(source_id, target_id, max_depth)` returns
`[source_id]` when the two ids coincide; otherwise, when a directed path of
at most `max_depth` hops exists it returns a path realizing the minimum
directed hop distance (BFS minimality), and when no such path exists it
returns `None`. -/
theorem claim_C1_shortest_path (ops : List GraphOp) (src tgt : String)
    (d : Int) :
    (src = tgt → (buildGraph ops).shortestPath src tgt d = some [src]) ∧
    (src ≠ tgt →
      ((∃ l, dirWalk (opRels ops) src l ∧ walkEnd src l = tgt ∧
          (l.length : Int) ≤ d) →
        ∃ p l, (buildGraph ops).shortestPath src tgt d = some p ∧
          p = src :: l ∧ dirWalk (opRels ops) src l ∧ walkEnd src l = tgt ∧
          (l.length : Int) ≤ d ∧
          ∀ l', dirWalk (opRels ops) src l' → walkEnd src l' = tgt →
            l.length ≤ l'.length) ∧
      ((¬ ∃ l, dirWalk (opRels ops) src l ∧ walkEnd src l = tgt ∧
          (l.length : Int) ≤ d) →
        (buildGraph ops).shortestPath src tgt d = none)) := by
  constructor
  · intro h
    simp [KnowledgeGraph.shortestPath, h]
  · intro hne
    have hsp : (buildGraph ops).shortestPath src tgt d =
        spLoop (buildGraph ops) tgt d
          ((buildGraph ops).relationships.length + 2) [src]
          [(src, [src])] := by
      simp [KnowledgeGraph.shortestPath, hne]
    have hrlen : (buildGraph ops).relationships.length =
        (opRels ops).length := by rw [relationships_buildGraph]
    constructor
    · rintro ⟨l0, hw0, he0, hl0⟩
      have hreach0 : reachN (opRels ops) src l0.length tgt :=
        (reachN_iff_walk _ src l0.length tgt).mpr ⟨l0, hw0, rfl, he0⟩
      obtain ⟨D, hD⟩ := exists_min_reach ⟨l0.length, hreach0⟩
      have hDle : D ≤ l0.length := isMinReach_le hD hreach0
      have hDd : (D : Int) ≤ d := by omega
      obtain ⟨p, hp⟩ := spLoop_complete ops src tgt d D hD.1 hD.2 hDd
        ((buildGraph ops).relationships.length + 2) [src] [(src, [src])]
        (spInv_init ops src tgt d hne)
        ⟨(src, [src]), by simp, D, hD.1, by simp⟩
        (by simp only [List.length_singleton]; rw [hrlen]; omega)
      obtain ⟨l, hpl, hwk, hend, hreach, hmins, hld⟩ :=
        spLoop_sound ops src tgt d _ [src] [(src, [src])] p
          (spInv_init ops src tgt d hne) hp
      refine ⟨p, l, by rw [hsp]; exact hp, hpl, hwk, hend, hld, ?_⟩
      intro l' hw' he'
      by_contra hlt
      exact hmins l'.length (by omega)
        ((reachN_iff_walk _ src l'.length tgt).mpr ⟨l', hw', rfl, he'⟩)
    · intro hno
      rw [hsp]
      cases hres : spLoop (buildGraph ops) tgt d
          ((buildGraph ops).relationships.length + 2) [src]
          [(src, [src])] with
      | none => rfl
      | some p =>
          exfalso
          obtain ⟨l, -, hwk, hend, -, -, hld⟩ :=
            spLoop_sound ops src tgt d _ [src] [(src, [src])] p
              (spInv_init ops src tgt d hne) hres
          exact hno ⟨l, hwk, hend, hld⟩

/-- Witness for C1 on the chain a → b → c: the minimal path from a to c. -/
theorem claim_C1_shortest_path_witness :
    ∃ p l, (buildGraph chainOps).shortestPath "a" "c" 5 = some p ∧
      p = "a" :: l ∧ dirWalk (opRels chainOps) "a" l ∧
      walkEnd "a" l = "c" ∧ (l.length : Int) ≤ 5 ∧
      ∀ l', dirWalk (opRels chainOps) "a" l' → walkEnd "a" l' = "c" →
        l.length ≤ l'.length := by
  have hedge1 : dirEdge (opRels chainOps) "a" "b" :=
    ⟨⟨"rel-1", "a", "b", RelType.owns⟩, by decide, rfl, rfl⟩
  have hedge2 : dirEdge (opRels chainOps) "b" "c" :=
    ⟨⟨"rel-2", "b", "c", RelType.owns⟩, by decide, rfl, rfl⟩
  exact ((claim_C1_shortest_path chainOps "a" "c" 5).2 (by decide)).1
    ⟨["b", "c"], ⟨hedge1, hedge2, trivial⟩, rfl, by decide⟩

/-!
## Reciprocal Rank Fusion (`hybrid_retrieval.py`)

Scores (`float`) are modelled exactly in `ℚ`.  The two dictionaries
`rrf_scores` and `item_map` are keyed identically (both are written exactly
when `item_id` is first seen), so they are modelled as a single
insertion-ordered association list of `(item_id, (item, score))`.
`1.0 / (k + rank)` raises `ZeroDivisionError` when `k + rank == 0`; this is
modelled with `Except`.
-/

/-- `MemoryItem` (fields read by `reciprocal_rank_fusion`). -/
structure MemoryItem where
  itemId : String
  content : String
deriving DecidableEq, Repr

/-- `RetrievalResult`. -/
structure RetrievalResult where
  item : MemoryItem
  score : ℚ
  source : String
  rank : Nat
deriving DecidableEq, Repr

/-- The fused `rrf_scores` / `item_map` state. -/
abbrev RrfAcc := List (String × MemoryItem × ℚ)

/-- One `rrf_scores[item_id] += contribution` step, initializing the score
to `0.0` and recording the item on first touch. -/
def rrfUpsert : RrfAcc → String → MemoryItem → ℚ → RrfAcc
  | [], id, item, c => [(id, item, c)]
  | (id', it', s') :: rest, id, item, c =>
      if id' == id then (id', it', s' + c) :: rest
      else (id', it', s') :: rrfUpsert rest id item c

/-- The `for i, result in enumerate(results)` loop over one ranked list,
starting at enumeration index `i`. -/
def rrfAddList (k : Int) : List RetrievalResult → Nat → RrfAcc →
    Except String RrfAcc
  | [], _, acc => .ok acc
  | res :: rest, i, acc =>
      if (k + ((i + 1 : Nat) : Int)) = 0 then
        .error "ZeroDivisionError: float division by zero"
      else
        rrfAddList k rest (i + 1)
          (rrfUpsert acc res.item.itemId res.item
            (1 / ((k : ℚ) + ((i + 1 : Nat) : ℚ))))

/-- The outer `for results in ranked_lists` loop. -/
def rrfAddLists (k : Int) : List (List RetrievalResult) → RrfAcc →
    Except String RrfAcc
  | [], acc => .ok acc
  | l :: ls, acc =>
      match rrfAddList k l 0 acc with
      | .error e => .error e
      | .ok acc' => rrfAddLists k ls acc'

/-- `reciprocal_rank_fusion(ranked_lists, k=60)`. -/
def reciprocal_rank_fusion (rankedLists : List (List RetrievalResult))
    (k : Int) : Except String (List RetrievalResult) :=
  match rrfAddLists k rankedLists [] with
  | .error e => .error e
  | .ok acc =>
      let sortedItems := acc.mergeSort (fun a b => decide (b.2.2 ≤ a.2.2))
      .ok (sortedItems.enum.map (fun p =>
        { item := p.2.2.1, score := p.2.2.2, source := "hybrid_rrf",
          rank := p.1 + 1 }))

/-- Look up an id in the accumulator. -/
def accFind : RrfAcc → String → Option (MemoryItem × ℚ)
  | [], _ => none
  | (id', p) :: rest, id => if id' == id then some p else accFind rest id

/-- The accumulated score of an id (`0` when absent). -/
def accScoreQ (acc : RrfAcc) (id : String) : ℚ :=
  match accFind acc id with
  | some p => p.2
  | none => 0

/-- Total contribution of one ranked list to an id when enumeration starts
at index `i`: one term per occurrence. -/
def occSum (k : Int) : List RetrievalResult → Nat → String → ℚ
  | [], _, _ => 0
  | r :: rest, i, id =>
      (if r.item.itemId = id then 1 / ((k : ℚ) + ((i + 1 : Nat) : ℚ))
        else 0) + occSum k rest (i + 1) id

/-- The 0-indexed position of the first result with the given item id. -/
def idIndexOf : List RetrievalResult → String → Option Nat
  | [], _ => none
  | r :: rest, id =>
      if r.item.itemId = id then some 0
      else (idIndexOf rest id).map (fun j => j + 1)

/-- The claim's per-list contribution: `1/(k + rank)` at the 1-indexed rank
of the item in the list, `0` when the item does not occur. -/
def rrfContribOf (k : Int) (l : List RetrievalResult) (id : String) : ℚ :=
  match idIndexOf l id with
  | some i => 1 / ((k : ℚ) + ((i + 1 : Nat) : ℚ))
  | none => 0

theorem rrfUpsert_fst (id : String) (item : MemoryItem) (c : ℚ) :
    ∀ acc : RrfAcc, (rrfUpsert acc id item c).map Prod.fst =
      if id ∈ acc.map Prod.fst then acc.map Prod.fst
      else acc.map Prod.fst ++ [id] := by
  intro acc
  induction acc with
  | nil => simp [rrfUpsert]
  | cons e rest ih =>
      obtain ⟨id', it', s'⟩ := e
      by_cases h : id' = id
      · subst h
        rw [show rrfUpsert ((id', it', s') :: rest) id' item c =
          (id', it', s' + c) :: rest from by simp [rrfUpsert]]
        simp
      · rw [show rrfUpsert ((id', it', s') :: rest) id item c =
          (id', it', s') :: rrfUpsert rest id item c from by
            simp [rrfUpsert, h]]
        simp only [List.map_cons, ih]
        have : (id ∈ id' :: rest.map Prod.fst) ↔
            (id ∈ rest.map Prod.fst) := by
          simp [List.mem_cons, Ne.symm h, fun hc : id = id' => h hc.symm]
        by_cases hmem : id ∈ rest.map Prod.fst
        · simp [hmem, this.mpr hmem]
        · rw [if_neg hmem, if_neg (fun hc => hmem (this.mp hc))]
          simp

theorem rrfUpsert_score_same (id : String) (item : MemoryItem) (c : ℚ) :
    ∀ acc : RrfAcc,
      accScoreQ (rrfUpsert acc id item c) id = accScoreQ acc id + c := by
  intro acc
  induction acc with
  | nil => simp [rrfUpsert, accScoreQ, accFind]
  | cons e rest ih =>
      obtain ⟨id', it', s'⟩ := e
      by_cases h : id' = id
      · subst h
        rw [show rrfUpsert ((id', it', s') :: rest) id' item c =
          (id', it', s' + c) :: rest from by simp [rrfUpsert]]
        simp [accScoreQ, accFind]
      · rw [show rrfUpsert ((id', it', s') :: rest) id item c =
          (id', it', s') :: rrfUpsert rest id item c from by
            simp [rrfUpsert, h]]
        have hne : (id' == id) = false := by
          simpa [beq_eq_false_iff_ne] using h
        simp only [accScoreQ, accFind, hne]
        exact ih

theorem rrfUpsert_score_other (id : String) (item : MemoryItem) (c : ℚ)
    (id2 : String) (hne : id2 ≠ id) :
    ∀ acc : RrfAcc,
      accScoreQ (rrfUpsert acc id item c) id2 = accScoreQ acc id2 := by
  intro acc
  induction acc with
  | nil =>
      have : (id == id2) = false := by
        simpa [beq_eq_false_iff_ne] using Ne.symm hne
      simp [rrfUpsert, accScoreQ, accFind, this]
  | cons e rest ih =>
      obtain ⟨id', it', s'⟩ := e
      by_cases h : id' = id
      · subst h
        rw [show rrfUpsert ((id', it', s') :: rest) id' item c =
          (id', it', s' + c) :: rest from by simp [rrfUpsert]]
        have : (id' == id2) = false := by
          simpa [beq_eq_false_iff_ne] using Ne.symm hne
        simp [accScoreQ, accFind, this]
      · rw [show rrfUpsert ((id', it', s') :: rest) id item c =
          (id', it', s') :: rrfUpsert rest id item c from by
            simp [rrfUpsert, h]]
        by_cases h2 : id' = id2
        · subst h2
          simp [accScoreQ, accFind]
        · have hne2 : (id' == id2) = false := by
            simpa [beq_eq_false_iff_ne] using h2
          simp only [accScoreQ, accFind, hne2]
          exact ih

theorem rrfUpsert_key_item (id : String) (item : MemoryItem) (c : ℚ)
    (hitem : item.itemId = id) :
    ∀ acc : RrfAcc, (∀ e ∈ acc, e.2.1.itemId = e.1) →
      ∀ e ∈ rrfUpsert acc id item c, e.2.1.itemId = e.1 := by
  intro acc
  induction acc with
  | nil =>
      intro _ e he
      rw [show rrfUpsert [] id item c = [(id, item, c)] from rfl] at he
      rw [List.mem_singleton.mp he]
      exact hitem
  | cons e0 rest ih =>
      obtain ⟨id', it', s'⟩ := e0
      intro hacc e he
      by_cases h : id' = id
      · subst h
        rw [show rrfUpsert ((id', it', s') :: rest) id' item c =
          (id', it', s' + c) :: rest from by simp [rrfUpsert]] at he
        rcases List.mem_cons.mp he with rfl | h'
        · exact hacc (id', it', s') (by simp)
        · exact hacc e (by simp [h'])
      · rw [show rrfUpsert ((id', it', s') :: rest) id item c =
          (id', it', s') :: rrfUpsert rest id item c from by
            simp [rrfUpsert, h]] at he
        rcases List.mem_cons.mp he with rfl | h'
        · exact hacc (id', it', s') (by simp)
        · exact ih (fun e' he' => hacc e' (by simp [he'])) e h'

theorem rrfUpsert_nodup (id : String) (item : MemoryItem) (c : ℚ)
    (acc : RrfAcc) (h : (acc.map Prod.fst).Nodup) :
    ((rrfUpsert acc id item c).map Prod.fst).Nodup := by
  rw [rrfUpsert_fst]
  by_cases hmem : id ∈ acc.map Prod.fst
  · rw [if_pos hmem]; exact h
  · rw [if_neg hmem, List.nodup_append]
    refine ⟨h, by simp, ?_⟩
    intro a ha hb
    rw [List.mem_singleton.mp hb] at ha
    exact hmem ha

theorem rrfAddList_spec (k : Int) :
    ∀ (l : List RetrievalResult) (i : Nat) (acc : RrfAcc),
      (∀ j < l.length, (k + ((i + j + 1 : Nat) : Int)) ≠ 0) →
      ∃ acc', rrfAddList k l i acc = .ok acc' ∧
        (∀ id, accScoreQ acc' id = accScoreQ acc id + occSum k l i id) ∧
        (∀ id, id ∈ acc'.map Prod.fst ↔ id ∈ acc.map Prod.fst ∨
          id ∈ l.map (fun r => r.item.itemId)) ∧
        ((acc.map Prod.fst).Nodup → (acc'.map Prod.fst).Nodup) ∧
        ((∀ e ∈ acc, e.2.1.itemId = e.1) →
          ∀ e ∈ acc', e.2.1.itemId = e.1) := by
  intro l
  induction l with
  | nil =>
      intro i acc h
      exact ⟨acc, rfl, by intro id; simp [occSum], by simp,
        fun h => h, fun h => h⟩
  | cons r rest ih =>
      intro i acc h
      have hdenom : ¬ (k + ((i + 1 : Nat) : Int)) = 0 := by
        have h0 := h 0 (by simp)
        omega
      set acc1 := rrfUpsert acc r.item.itemId r.item
        (1 / ((k : ℚ) + ((i + 1 : Nat) : ℚ))) with hacc1
      obtain ⟨acc', hok, hscore, hmem, hnd, hkey⟩ :=
        ih (i + 1) acc1 (by
          intro j hj
          have := h (j + 1) (by simpa using Nat.succ_lt_succ hj)
          omega)
      refine ⟨acc', ?_, ?_, ?_, ?_, ?_⟩
      · rw [show rrfAddList k (r :: rest) i acc =
          (if (k + ((i + 1 : Nat) : Int)) = 0 then
            (.error "ZeroDivisionError: float division by zero" :
              Except String RrfAcc)
          else rrfAddList k rest (i + 1) acc1) from rfl, if_neg hdenom]
        exact hok
      · intro sid
        rw [hscore sid]
        by_cases hid : sid = r.item.itemId
        · rw [hid, hacc1, rrfUpsert_score_same,
            show occSum k (r :: rest) i r.item.itemId =
              (if r.item.itemId = r.item.itemId then
                1 / ((k : ℚ) + ((i + 1 : Nat) : ℚ)) else 0) +
                occSum k rest (i + 1) r.item.itemId from rfl, if_pos rfl]
          ring
        · rw [hacc1, rrfUpsert_score_other _ _ _ _ hid,
            show occSum k (r :: rest) i sid =
              (if r.item.itemId = sid then
                1 / ((k : ℚ) + ((i + 1 : Nat) : ℚ)) else 0) +
                occSum k rest (i + 1) sid from rfl,
            if_neg (fun hc => hid hc.symm)]
          ring
      · intro id
        rw [hmem id, hacc1, rrfUpsert_fst]
        by_cases hin : r.item.itemId ∈ acc.map Prod.fst
        · rw [if_pos hin]
          simp only [List.map_cons, List.mem_cons]
          constructor
          · rintro (h' | h')
            · exact Or.inl h'
            · exact Or.inr (Or.inr h')
          · rintro (h' | h' | h')
            · exact Or.inl h'
            · exact Or.inl (h' ▸ hin)
            · exact Or.inr h'
        · rw [if_neg hin]
          simp only [List.mem_append, List.mem_singleton, List.map_cons,
            List.mem_cons]
          tauto
      · intro hn
        exact hnd (rrfUpsert_nodup _ _ _ _ hn)
      · intro hk0
        exact hkey (rrfUpsert_key_item _ _ _ rfl acc hk0)

theorem rrfAddLists_spec (k : Int) :
    ∀ (ls : List (List RetrievalResult)) (acc : RrfAcc),
      (∀ l ∈ ls, ∀ j < l.length, (k + ((j + 1 : Nat) : Int)) ≠ 0) →
      ∃ acc', rrfAddLists k ls acc = .ok acc' ∧
        (∀ id, accScoreQ acc' id = accScoreQ acc id +
          (ls.map (fun l => occSum k l 0 id)).sum) ∧
        (∀ id, id ∈ acc'.map Prod.fst ↔ id ∈ acc.map Prod.fst ∨
          ∃ l ∈ ls, id ∈ l.map (fun r => r.item.itemId)) ∧
        ((acc.map Prod.fst).Nodup → (acc'.map Prod.fst).Nodup) ∧
        ((∀ e ∈ acc, e.2.1.itemId = e.1) →
          ∀ e ∈ acc', e.2.1.itemId = e.1) := by
  intro ls
  induction ls with
  | nil =>
      intro acc h
      exact ⟨acc, rfl, by intro id; simp, by simp, fun h => h, fun h => h⟩
  | cons l ls ih =>
      intro acc h
      obtain ⟨acc1, hok1, hscore1, hmem1, hnd1, hkey1⟩ :=
        rrfAddList_spec k l 0 acc (by
          intro j hj
          have := h l (by simp) j hj
          omega)
      obtain ⟨acc', hok, hscore, hmem, hnd, hkey⟩ :=
        ih acc1 (fun l' hl' => h l' (by simp [hl']))
      refine ⟨acc', ?_, ?_, ?_, fun hn => hnd (hnd1 hn),
        fun hk0 => hkey (hkey1 hk0)⟩
      · rw [show rrfAddLists k (l :: ls) acc =
          (match rrfAddList k l 0 acc with
           | .error e => (.error e : Except String RrfAcc)
           | .ok acc' => rrfAddLists k ls acc') from rfl, hok1]
        exact hok
      · intro id
        rw [hscore id, hscore1 id]
        simp only [List.map_cons, List.sum_cons]
        ring
      · intro id
        rw [hmem id, hmem1 id]
        constructor
        · rintro ((h' | h') | h')
          · exact Or.inl h'
          · exact Or.inr ⟨l, by simp, h'⟩
          · obtain ⟨l', hl', hid⟩ := h'
            exact Or.inr ⟨l', by simp [hl'], hid⟩
        · rintro (h' | ⟨l', hl', hid⟩)
          · exact Or.inl (Or.inl h')
          · rcases List.mem_cons.mp hl' with rfl | hl''
            · exact Or.inl (Or.inr hid)
            · exact Or.inr ⟨l', hl'', hid⟩

theorem occSum_eq_zero (k : Int) (id : String) :
    ∀ (l : List RetrievalResult) (i : Nat),
      id ∉ l.map (fun r => r.item.itemId) → occSum k l i id = 0 := by
  intro l
  induction l with
  | nil => intro i _; rfl
  | cons r rest ih =>
      intro i hnot
      simp only [List.map_cons, List.mem_cons] at hnot
      push_neg at hnot
      rw [show occSum k (r :: rest) i id =
        (if r.item.itemId = id then
          1 / ((k : ℚ) + ((i + 1 : Nat) : ℚ)) else 0) +
          occSum k rest (i + 1) id from rfl,
        if_neg (fun hc => hnot.1 hc.symm), ih (i + 1) hnot.2]
      ring

theorem occSum_eq_contrib (k : Int) (id : String) :
    ∀ (l : List RetrievalResult),
      (l.map (fun r => r.item.itemId)).Nodup →
      ∀ i, occSum k l i id =
        (match idIndexOf l id with
         | some j => 1 / ((k : ℚ) + ((i + j + 1 : Nat) : ℚ))
         | none => 0) := by
  intro l
  induction l with
  | nil => intro _ i; rfl
  | cons r rest ih =>
      intro hnd i
      rw [List.map_cons, List.nodup_cons] at hnd
      by_cases hr : r.item.itemId = id
      · have hnotin : id ∉ rest.map (fun r => r.item.itemId) :=
          hr ▸ hnd.1
        rw [show occSum k (r :: rest) i id =
          (if r.item.itemId = id then
            1 / ((k : ℚ) + ((i + 1 : Nat) : ℚ)) else 0) +
            occSum k rest (i + 1) id from rfl, if_pos hr,
          occSum_eq_zero k id rest (i + 1) hnotin,
          show idIndexOf (r :: rest) id = some 0 from by
            simp [idIndexOf, hr]]
        simp
      · rw [show occSum k (r :: rest) i id =
          (if r.item.itemId = id then
            1 / ((k : ℚ) + ((i + 1 : Nat) : ℚ)) else 0) +
            occSum k rest (i + 1) id from rfl, if_neg hr,
          ih hnd.2 (i + 1),
          show idIndexOf (r :: rest) id =
            (idIndexOf rest id).map (fun j => j + 1) from by
              simp [idIndexOf, hr]]
        cases idIndexOf rest id with
        | none => simp
        | some j =>
            show (0 : ℚ) + 1 / ((k : ℚ) + ((i + 1 + j + 1 : Nat) : ℚ)) =
              1 / ((k : ℚ) + ((i + (j + 1) + 1 : Nat) : ℚ))
            rw [show i + 1 + j + 1 = i + (j + 1) + 1 from by omega,
              zero_add]

theorem accFind_of_mem :
    ∀ (acc : RrfAcc), (acc.map Prod.fst).Nodup →
      ∀ e ∈ acc, accFind acc e.1 = some e.2 := by
  intro acc
  induction acc with
  | nil => intro _ e he; simp at he
  | cons e0 rest ih =>
      intro hnd e he
      rw [List.map_cons, List.nodup_cons] at hnd
      rcases List.mem_cons.mp he with rfl | h'
      · rw [show accFind (e :: rest) e.1 =
          (if e.1 == e.1 then some e.2 else accFind rest e.1) from rfl]
        simp
      · have hne : e0.1 ≠ e.1 := by
          intro hc
          exact hnd.1 (hc ▸ List.mem_map_of_mem Prod.fst h')
        rw [show accFind (e0 :: rest) e.1 =
          (if e0.1 == e.1 then some e0.2 else accFind rest e.1) from by
            obtain ⟨a, b⟩ := e0; rfl]
        rw [if_neg (by simpa using hne)]
        exact ih hnd.2 e h'

/-- **C2 (amended).** For input lists in which each `item_id` occurs at most
once per list, and any `k` such that `k + rank` is never zero for the ranks
occurring in the inputs, `reciprocal_rank_fusion` succeeds and returns one
result per distinct `item_id`, scored by the RRF sum, sorted nonincreasingly
with consecutive 1-indexed ranks. -/
theorem claim_C2_rrf (rankedLists : List (List RetrievalResult)) (k : Int)
    (hnodup : ∀ l ∈ rankedLists, (l.map (fun r => r.item.itemId)).Nodup)
    (hk : ∀ l ∈ rankedLists, ∀ j < l.length,
      (k + ((j + 1 : Nat) : Int)) ≠ 0) :
    ∃ out, reciprocal_rank_fusion rankedLists k = .ok out ∧
      (out.map (fun r => r.item.itemId)).Nodup ∧
      (∀ id, id ∈ out.map (fun r => r.item.itemId) ↔
        ∃ l ∈ rankedLists, id ∈ l.map (fun r => r.item.itemId)) ∧
      (∀ res ∈ out, res.score =
        (rankedLists.map (fun l => rrfContribOf k l res.item.itemId)).sum) ∧
      (∀ (i j : Nat) (hi : i < out.length) (hj : j < out.length), i < j →
        (out.get ⟨j, hj⟩).score ≤ (out.get ⟨i, hi⟩).score) ∧
      (∀ (i : Nat) (hi : i < out.length), (out.get ⟨i, hi⟩).rank = i + 1) := by
  obtain ⟨acc, hok, hscore, hmem, hnd, hkey⟩ :=
    rrfAddLists_spec k rankedLists [] hk
  have hnd' : (acc.map Prod.fst).Nodup := hnd (by simp)
  have hkey' : ∀ e ∈ acc, e.2.1.itemId = e.1 := hkey (by simp)
  set le : (String × MemoryItem × ℚ) → (String × MemoryItem × ℚ) → Bool :=
    fun a b => decide (b.2.2 ≤ a.2.2) with hle
  set sortedItems := acc.mergeSort le with hsi
  have hperm : sortedItems.Perm acc := List.mergeSort_perm acc le
  set f : Nat × (String × MemoryItem × ℚ) → RetrievalResult := fun p =>
    { item := p.2.2.1, score := p.2.2.2, source := "hybrid_rrf",
      rank := p.1 + 1 } with hf
  set out := sortedItems.enum.map f with hout_def
  have hout : reciprocal_rank_fusion rankedLists k = .ok out := by
    unfold reciprocal_rank_fusion
    rw [hok]
  have hlen : out.length = sortedItems.length := by
    rw [hout_def, List.length_map, List.enum_length]
  have hget : ∀ (n : Nat) (hn : n < out.length),
      out.get ⟨n, hn⟩ = f (n, sortedItems.get ⟨n, hlen ▸ hn⟩) := by
    intro n hn
    show (List.map f sortedItems.enum).get ⟨n, hn⟩ = _
    simp only [List.get_eq_getElem, List.getElem_map]
    rw [List.getElem_enum]
  have hmapeq : out.map (fun r => r.item.itemId) =
      sortedItems.map Prod.fst := by
    apply List.ext_get (by simp [hlen])
    intro n h1 h2
    have hn' : n < out.length := by simpa using h1
    have h3 := hget n hn'
    simp only [List.get_eq_getElem] at h3
    simp only [List.get_eq_getElem, List.getElem_map, h3]
    exact hkey' _ (hperm.mem_iff.mp (List.getElem_mem _))
  have hsortpair : List.Pairwise
      (fun a b : String × MemoryItem × ℚ => b.2.2 ≤ a.2.2) sortedItems := by
    have htrans : ∀ a b c : String × MemoryItem × ℚ,
        le a b = true → le b c = true → le a c = true := by
      intro a b c h1 h2
      rw [hle] at h1 h2 ⊢
      simp only [decide_eq_true_eq] at h1 h2 ⊢
      exact le_trans h2 h1
    have htotal : ∀ a b : String × MemoryItem × ℚ,
        (le a b || le b a) = true := by
      intro a b
      rw [hle]
      simp only [Bool.or_eq_true, decide_eq_true_eq]
      exact le_total _ _
    have := List.sorted_mergeSort htrans htotal acc
    apply this.imp
    intro a b h
    rw [hle] at h
    simpa using h
  refine ⟨out, hout, ?_, ?_, ?_, ?_, ?_⟩
  · rw [hmapeq]
    exact (hperm.map Prod.fst).nodup_iff.mpr hnd'
  · intro id
    rw [hmapeq, (hperm.map Prod.fst).mem_iff, hmem id]
    simp
  · intro res hres
    obtain ⟨⟨n, hn⟩, rfl⟩ := List.mem_iff_get.mp hres
    rw [hget n hn]
    set e := sortedItems.get ⟨n, hlen ▸ hn⟩ with he_def
    have hemem : e ∈ acc := hperm.mem_iff.mp (List.get_mem _ _ _)
    have heid : (f (n, e)).item.itemId = e.1 := hkey' e hemem
    have hfind : accFind acc e.1 = some e.2 := accFind_of_mem acc hnd' e hemem
    have hsc : accScoreQ acc e.1 = e.2.2 := by
      rw [accScoreQ, hfind]
    have hssum := hscore e.1
    rw [hsc] at hssum
    have hscz : accScoreQ [] e.1 = 0 := rfl
    rw [hscz, zero_add] at hssum
    rw [show (f (n, e)).score = e.2.2 from rfl, heid, hssum]
    apply congrArg
    apply List.map_congr_left
    intro l hl
    rw [occSum_eq_contrib k e.1 l (hnodup l hl) 0]
    rw [rrfContribOf]
    cases idIndexOf l e.1 with
    | none => rfl
    | some j =>
        show (1 : ℚ) / ((k : ℚ) + ((0 + j + 1 : Nat) : ℚ)) = _
        rw [Nat.zero_add]
  · intro i j hi hj hij
    rw [hget i hi, hget j hj]
    have := List.pairwise_iff_getElem.mp hsortpair i j
      (by omega) (by omega) hij
    simpa [hf] using this
  · intro i hi
    rw [hget i hi]

/-- **C2 counterexample.** At `k = -1` the first rank makes `k + rank = 0`
and the Python code raises `ZeroDivisionError` instead of returning a
fused ranking. -/
theorem claim_C2_rrf_counterexample :
    reciprocal_rank_fusion [[⟨⟨"m1", "x"⟩, 0, "vector", 0⟩]] (-1) =
      .error "ZeroDivisionError: float division by zero" := rfl

/-- Witness for C2: one single-element list at the default `k = 60`. -/
theorem claim_C2_rrf_witness :
    ∃ out, reciprocal_rank_fusion [[⟨⟨"m1", "x"⟩, 0, "vector", 0⟩]] 60 =
        .ok out ∧
      (out.map (fun r => r.item.itemId)).Nodup ∧
      (∀ id, id ∈ out.map (fun r => r.item.itemId) ↔
        ∃ l ∈ [[(⟨⟨"m1", "x"⟩, 0, "vector", 0⟩ : RetrievalResult)]],
          id ∈ l.map (fun r => r.item.itemId)) ∧
      (∀ res ∈ out, res.score =
        ([[(⟨⟨"m1", "x"⟩, 0, "vector", 0⟩ : RetrievalResult)]].map
          (fun l => rrfContribOf 60 l res.item.itemId)).sum) ∧
      (∀ (i j : Nat) (hi : i < out.length) (hj : j < out.length), i < j →
        (out.get ⟨j, hj⟩).score ≤ (out.get ⟨i, hi⟩).score) ∧
      (∀ (i : Nat) (hi : i < out.length), (out.get ⟨i, hi⟩).rank = i + 1) :=
  claim_C2_rrf [[⟨⟨"m1", "x"⟩, 0, "vector", 0⟩]] 60
    (by intro l hl; rw [List.mem_singleton.mp hl]; simp)
    (by intro l hl j hj; rw [List.mem_singleton.mp hl] at hj; simp at hj; omega)

/-!
## Vector search (`vector_search.py`)

Embedding components (`float`) are modelled in `ℚ`; cosine-similarity
values, which involve `math.sqrt`, live in `ℝ`.  The test
`magnitude_a == 0 or magnitude_b == 0` of the source is modelled by the
equivalent decidable test on the sums of squares (`sqrt x == 0` for a
nonnegative float `x` exactly when `x == 0`); the lemma
`magnitude_eq_zero_iff` records the equivalence.  `raise ValueError`
becomes `Except.error`.
-/

/-- `Document` (fields read by the verified code); metadata values are
modelled as strings, as in the repository's examples. -/
structure Document where
  docId : String
  content : String
  embedding : List ℚ
  metadata : List (String × String)
deriving DecidableEq, Repr

/-- `SearchResult`. -/
structure SearchResult where
  document : Document
  similarityScore : ℝ
  rank : Nat

/-- `sum(a * b for a, b in zip(vec_a, vec_b))`. -/
def dotProduct (a b : List ℚ) : ℚ :=
  ((a.zip b).map (fun p => p.1 * p.2)).sum

/-- `sum(a * a for a in v)`. -/
def sumSq (v : List ℚ) : ℚ := (v.map (fun x => x * x)).sum

/-- `math.sqrt(sum(a * a for a in v))`. -/
noncomputable def magnitude (v : List ℚ) : ℝ := Real.sqrt ((sumSq v : ℚ) : ℝ)

/-- `SimpleVectorStore._cosine_similarity`. -/
noncomputable def cosineSimilarity (vecA vecB : List ℚ) : Except String ℝ :=
  if vecA.length ≠ vecB.length then
    .error "Vectors must have same dimensions"
  else if sumSq vecA = 0 ∨ sumSq vecB = 0 then .ok 0
  else .ok ((dotProduct vecA vecB : ℚ) / (magnitude vecA * magnitude vecB))

/-- `SimpleVectorStore._matches_filter`. -/
def matchesFilter (metadata filterDict : List (String × String)) : Bool :=
  filterDict.all fun kv =>
    match metadata.lookup kv.1 with
    | some v => v == kv.2
    | none => false

/-- The truthiness test `if metadata_filter:` combined with the filter
check: a document is skipped iff a nonempty filter is given and the
document does not match it (`None` and the empty dict are both falsy). -/
def skipDoc (metadataFilter : Option (List (String × String)))
    (doc : Document) : Bool :=
  match metadataFilter with
  | none => false
  | some f => if f.isEmpty then false else ! matchesFilter doc.metadata f

/-- The `for doc in self._documents.values():` loop of `similarity_search`,
collecting `(doc, similarity)` pairs in document order. -/
noncomputable def ssCollect (q : List ℚ)
    (mf : Option (List (String × String))) :
    List Document → Except String (List (Document × ℝ))
  | [] => .ok []
  | doc :: rest =>
      if skipDoc mf doc then ssCollect q mf rest
      else
        match cosineSimilarity q doc.embedding with
        | .error e => .error e
        | .ok s =>
            match ssCollect q mf rest with
            | .error e => .error e
            | .ok ps => .ok ((doc, s) :: ps)

/-- Python list slicing `l[:n]` for an `int` bound `n` (a negative bound
counts from the end, clamping at zero). -/
def pySliceTo (n : Int) {α : Type} (l : List α) : List α :=
  if n < 0 then l.take ((l.length : Int) + n).toNat else l.take n.toNat

/-- The document dictionary of a `SimpleVectorStore`. -/
structure SimpleVectorStore where
  documents : List (String × Document)

/-- `SimpleVectorStore.similarity_search`. -/
noncomputable def SimpleVectorStore.similaritySearch
    (store : SimpleVectorStore) (queryEmbedding : List ℚ) (topK : Int)
    (metadataFilter : Option (List (String × String))) :
    Except String (List SearchResult) :=
  match ssCollect queryEmbedding metadataFilter
      (store.documents.map Prod.snd) with
  | .error e => .error e
  | .ok results =>
      let sorted := results.mergeSort (fun a b => decide (b.2 ≤ a.2))
      .ok ((pySliceTo topK sorted).enum.map (fun p =>
        { document := p.2.1, similarityScore := p.2.2, rank := p.1 + 1 }))

theorem sumSq_nonneg (v : List ℚ) : 0 ≤ sumSq v := by
  apply List.sum_nonneg
  intro x hx
  obtain ⟨a, -, rfl⟩ := List.mem_map.mp hx
  exact mul_self_nonneg a

theorem magnitude_eq_zero_iff (v : List ℚ) :
    magnitude v = 0 ↔ sumSq v = 0 := by
  rw [magnitude, Real.sqrt_eq_zero (by exact_mod_cast sumSq_nonneg v)]
  exact_mod_cast Iff.rfl

theorem magnitude_ne_zero_of_sumSq {v : List ℚ} (h : sumSq v ≠ 0) :
    magnitude v ≠ 0 := fun hc => h ((magnitude_eq_zero_iff v).mp hc)

/-- **C5.** `_cosine_similarity` raises exactly on dimension mismatch;
for equal-length vectors it returns `0.0` when either magnitude is zero
and otherwise the dot product divided by the (nonzero) product of the
magnitudes. -/
theorem claim_C5_cosine_guard (a b : List ℚ) :
    ((∃ e, cosineSimilarity a b = .error e) ↔ a.length ≠ b.length) ∧
    (a.length = b.length →
      ((magnitude a = 0 ∨ magnitude b = 0 →
        cosineSimilarity a b = .ok 0) ∧
       (magnitude a ≠ 0 → magnitude b ≠ 0 →
        cosineSimilarity a b =
          .ok ((dotProduct a b : ℚ) / (magnitude a * magnitude b)) ∧
        magnitude a * magnitude b ≠ 0))) := by
  constructor
  · constructor
    · rintro ⟨e, he⟩
      by_contra hlen
      rw [cosineSimilarity, if_neg (by omega)] at he
      by_cases hz : sumSq a = 0 ∨ sumSq b = 0
      · rw [if_pos hz] at he
        exact Except.noConfusion he
      · rw [if_neg hz] at he
        exact Except.noConfusion he
    · intro hlen
      exact ⟨_, by rw [cosineSimilarity, if_pos hlen]⟩
  · intro hlen
    constructor
    · intro hz
      have hz' : sumSq a = 0 ∨ sumSq b = 0 := by
        rcases hz with h | h
        · exact Or.inl ((magnitude_eq_zero_iff a).mp h)
        · exact Or.inr ((magnitude_eq_zero_iff b).mp h)
      rw [cosineSimilarity, if_neg (by omega), if_pos hz']
    · intro ha hb
      have hz' : ¬ (sumSq a = 0 ∨ sumSq b = 0) := by
        rintro (h | h)
        · exact ha ((magnitude_eq_zero_iff a).mpr h)
        · exact hb ((magnitude_eq_zero_iff b).mpr h)
      exact ⟨by rw [cosineSimilarity, if_neg (by omega), if_neg hz'],
        mul_ne_zero ha hb⟩

/-- Witness for C5 at `[3,4]` against itself: magnitudes are `5`, the
result is `25 / (5 * 5)`. -/
theorem claim_C5_cosine_guard_witness :
    cosineSimilarity [3, 4] [3, 4] =
      .ok ((25 : ℝ) / (magnitude [3, 4] * magnitude [3, 4])) ∧
    magnitude [3, 4] * magnitude [3, 4] ≠ 0 := by
  have hm : magnitude [3, 4] ≠ 0 := by
    apply magnitude_ne_zero_of_sumSq
    rw [show sumSq [3, 4] = 25 from by norm_num [sumSq]]
    norm_num
  have h := ((claim_C5_cosine_guard [3, 4] [3, 4]).2 rfl).2 hm hm
  refine ⟨?_, h.2⟩
  rw [h.1]
  congr 1
  rw [show dotProduct [3, 4] [3, 4] = 25 from by norm_num [dotProduct]]
  norm_num

theorem cosineSimilarity_error_iff (a b : List ℚ) :
    (∃ e, cosineSimilarity a b = .error e) ↔ a.length ≠ b.length := by
  constructor
  · rintro ⟨e, he⟩
    by_contra hlen
    rw [cosineSimilarity, if_neg (by omega)] at he
    by_cases hz : sumSq a = 0 ∨ sumSq b = 0
    · rw [if_pos hz] at he
      exact Except.noConfusion he
    · rw [if_neg hz] at he
      exact Except.noConfusion he
  · intro hlen
    exact ⟨_, by rw [cosineSimilarity, if_pos hlen]⟩

theorem cosineSimilarity_ok (a b : List ℚ) (h : a.length = b.length) :
    ∃ s, cosineSimilarity a b = .ok s := by
  rw [cosineSimilarity, if_neg (by omega)]
  by_cases hz : sumSq a = 0 ∨ sumSq b = 0
  · exact ⟨0, by rw [if_pos hz]⟩
  · exact ⟨_, by rw [if_neg hz]⟩

theorem ssCollect_error_iff (q : List ℚ)
    (mf : Option (List (String × String))) :
    ∀ docs : List Document,
      (∃ e, ssCollect q mf docs = .error e) ↔
        ∃ doc ∈ docs, skipDoc mf doc = false ∧
          q.length ≠ doc.embedding.length := by
  intro docs
  induction docs with
  | nil =>
      constructor
      · rintro ⟨e, he⟩
        have h0 : ssCollect q mf [] = Except.ok [] := rfl
        rw [h0] at he
        exact Except.noConfusion he
      · rintro ⟨d, hd, -⟩
        simp at hd
  | cons doc rest ih =>
      by_cases hskip : skipDoc mf doc = true
      · rw [show ssCollect q mf (doc :: rest) = ssCollect q mf rest from by
          rw [ssCollect, if_pos hskip], ih]
        constructor
        · rintro ⟨d, hd, h1, h2⟩
          exact ⟨d, by simp [hd], h1, h2⟩
        · rintro ⟨d, hd, h1, h2⟩
          rcases List.mem_cons.mp hd with rfl | hd'
          · rw [hskip] at h1
            exact Bool.noConfusion h1
          · exact ⟨d, hd', h1, h2⟩
      · have hskip' : skipDoc mf doc = false := by
          simpa using hskip
        rw [show ssCollect q mf (doc :: rest) =
          (match cosineSimilarity q doc.embedding with
           | .error e => .error e
           | .ok s =>
              match ssCollect q mf rest with
              | .error e => .error e
              | .ok ps => .ok ((doc, s) :: ps)) from by
          rw [ssCollect, if_neg hskip]]
        cases hc : cosineSimilarity q doc.embedding with
        | error e =>
            have hne : q.length ≠ doc.embedding.length :=
              (cosineSimilarity_error_iff q doc.embedding).mp ⟨e, hc⟩
            constructor
            · intro _
              exact ⟨doc, by simp, hskip', hne⟩
            · intro _
              exact ⟨e, rfl⟩
        | ok s =>
            have hlen : q.length = doc.embedding.length := by
              by_contra hne
              obtain ⟨e, he⟩ :=
                (cosineSimilarity_error_iff q doc.embedding).mpr hne
              rw [hc] at he
              exact Except.noConfusion he
            cases hr : ssCollect q mf rest with
            | error e =>
                have : ∃ d ∈ rest, skipDoc mf d = false ∧
                    q.length ≠ d.embedding.length := (ih).mp ⟨e, hr⟩
                obtain ⟨d, hd, h1, h2⟩ := this
                constructor
                · intro _
                  exact ⟨d, by simp [hd], h1, h2⟩
                · intro _
                  exact ⟨e, rfl⟩
            | ok ps =>
                constructor
                · rintro ⟨e, he⟩
                  exact Except.noConfusion he
                · rintro ⟨d, hd, h1, h2⟩
                  rcases List.mem_cons.mp hd with rfl | hd'
                  · exact absurd hlen h2
                  · obtain ⟨e, he⟩ := (ih).mpr ⟨d, hd', h1, h2⟩
                    rw [hr] at he
                    exact Except.noConfusion he

theorem ssCollect_ok_spec (q : List ℚ)
    (mf : Option (List (String × String))) :
    ∀ docs : List Document,
      (∀ d ∈ docs, skipDoc mf d = false →
        d.embedding.length = q.length) →
      ∃ pairs, ssCollect q mf docs = .ok pairs ∧
        pairs.map Prod.fst = docs.filter (fun d => ! skipDoc mf d) := by
  intro docs
  induction docs with
  | nil => exact fun _ => ⟨[], rfl, by simp⟩
  | cons doc rest ih =>
      intro h
      obtain ⟨ps, hps, hmap⟩ := ih (fun d hd => h d (by simp [hd]))
      by_cases hskip : skipDoc mf doc = true
      · refine ⟨ps, ?_, ?_⟩
        · rw [ssCollect, if_pos hskip]
          exact hps
        · rw [hmap, List.filter_cons, show (! skipDoc mf doc) = false from by
            simp [hskip]]
          simp
      · have hskip' : skipDoc mf doc = false := by simpa using hskip
        obtain ⟨s, hs⟩ := cosineSimilarity_ok q doc.embedding
          (h doc (by simp) hskip').symm
        refine ⟨(doc, s) :: ps, ?_, ?_⟩
        · rw [ssCollect, if_neg hskip, hs, hps]
        · rw [List.map_cons, hmap, List.filter_cons,
            show (! skipDoc mf doc) = true from by simp [hskip']]
          simp

theorem matchesFilter_iff (md f : List (String × String)) :
    matchesFilter md f = true ↔ ∀ kv ∈ f, md.lookup kv.1 = some kv.2 := by
  rw [matchesFilter, List.all_eq_true]
  constructor
  · intro h kv hkv
    have := h kv hkv
    revert this
    cases hl : md.lookup kv.1 with
    | none => intro h'; exact Bool.noConfusion h'
    | some v =>
        intro h'
        have : v = kv.2 := by simpa using h'
        rw [this]
  · intro h kv hkv
    rw [h kv hkv]
    simp

/-- **C8 counterexample.** `_cosine_similarity` does raise: on vectors of
different dimensions it raises `ValueError` instead of returning
normally. -/
theorem claim_C8_no_failure_counterexample :
    cosineSimilarity [1] [1, 2] =
      .error "Vectors must have same dimensions" := by
  rw [cosineSimilarity, if_pos (by decide)]

/-- **C8 (amended).** The only failure behaviour in the hybrid retrieval
subsystem: `_cosine_similarity` raises exactly on dimension mismatch, and
`similarity_search` propagates that error exactly when some stored
document that passes the metadata filter has an embedding whose length
differs from the query's; nothing catches errors. -/
theorem claim_C8_failure_characterization (a b : List ℚ)
    (store : SimpleVectorStore) (q : List ℚ) (topK : Int)
    (mf : Option (List (String × String))) :
    ((∃ e, cosineSimilarity a b = .error e) ↔ a.length ≠ b.length) ∧
    ((∃ e, store.similaritySearch q topK mf = .error e) ↔
      ∃ d ∈ store.documents.map Prod.snd, skipDoc mf d = false ∧
        q.length ≠ d.embedding.length) := by
  refine ⟨cosineSimilarity_error_iff a b, ?_⟩
  rw [← ssCollect_error_iff q mf (store.documents.map Prod.snd)]
  cases hc : ssCollect q mf (store.documents.map Prod.snd) with
  | error e0 =>
      constructor
      · intro _
        exact ⟨e0, rfl⟩
      · intro _
        refine ⟨e0, ?_⟩
        unfold SimpleVectorStore.similaritySearch
        rw [hc]
  | ok ps =>
      constructor
      · rintro ⟨e, he⟩
        unfold SimpleVectorStore.similaritySearch at he
        rw [hc] at he
        exact Except.noConfusion he
      · rintro ⟨e, he⟩
        exact Except.noConfusion he

/-- **C6 (amended).** For a nonnegative `top_k` and a store whose
documents' embeddings all have the query's length, `similarity_search`
succeeds and returns at most `top_k` results, sorted nonincreasingly by
similarity score, with consecutive 1-indexed ranks, every returned
document matching the metadata filter. -/
theorem claim_C6_similarity_search (store : SimpleVectorStore)
    (q : List ℚ) (topK : Int) (mf : Option (List (String × String)))
    (htop : 0 ≤ topK)
    (hlen : ∀ d ∈ store.documents.map Prod.snd,
      d.embedding.length = q.length) :
    ∃ res, store.similaritySearch q topK mf = .ok res ∧
      (res.length : Int) ≤ topK ∧
      (∀ (i j : Nat) (hi : i < res.length) (hj : j < res.length), i < j →
        (res.get ⟨j, hj⟩).similarityScore ≤
          (res.get ⟨i, hi⟩).similarityScore) ∧
      (∀ (i : Nat) (hi : i < res.length), (res.get ⟨i, hi⟩).rank = i + 1) ∧
      (∀ r ∈ res, ∀ f, mf = some f → ∀ kv ∈ f,
        r.document.metadata.lookup kv.1 = some kv.2) := by
  obtain ⟨pairs, hok, hmap⟩ := ssCollect_ok_spec q mf
    (store.documents.map Prod.snd) (fun d hd _ => hlen d hd)
  set le : (Document × ℝ) → (Document × ℝ) → Bool :=
    fun a b => decide (b.2 ≤ a.2) with hle
  set sorted := pairs.mergeSort le with hsorted_def
  have hperm : sorted.Perm pairs := List.mergeSort_perm pairs le
  set sliced := pySliceTo topK sorted with hsliced_def
  set f : Nat × (Document × ℝ) → SearchResult := fun p =>
    { document := p.2.1, similarityScore := p.2.2, rank := p.1 + 1 }
    with hf
  set res := sliced.enum.map f with hres_def
  have hres : store.similaritySearch q topK mf = .ok res := by
    unfold SimpleVectorStore.similaritySearch
    rw [hok]
  have hsub : sliced.Sublist sorted := by
    rw [hsliced_def, pySliceTo, if_neg (by omega)]
    exact List.take_sublist _ _
  have hlen1 : res.length = sliced.length := by
    rw [hres_def, List.length_map, List.enum_length]
  have hget : ∀ (n : Nat) (hn : n < res.length),
      res.get ⟨n, hn⟩ = f (n, sliced.get ⟨n, hlen1 ▸ hn⟩) := by
    intro n hn
    show (List.map f sliced.enum).get ⟨n, hn⟩ = _
    simp only [List.get_eq_getElem, List.getElem_map]
    rw [List.getElem_enum]
  have hsortpair : List.Pairwise
      (fun a b : Document × ℝ => b.2 ≤ a.2) sliced := by
    have htrans : ∀ a b c : Document × ℝ,
        le a b = true → le b c = true → le a c = true := by
      intro a b c h1 h2
      rw [hle] at h1 h2 ⊢
      simp only [decide_eq_true_eq] at h1 h2 ⊢
      exact le_trans h2 h1
    have htotal : ∀ a b : Document × ℝ, (le a b || le b a) = true := by
      intro a b
      rw [hle]
      simp only [Bool.or_eq_true, decide_eq_true_eq]
      exact le_total _ _
    have hp := List.sorted_mergeSort htrans htotal pairs
    have hp' : List.Pairwise (fun a b : Document × ℝ => b.2 ≤ a.2)
        sorted := by
      apply hp.imp
      intro a b h
      rw [hle] at h
      simpa using h
    exact hp'.sublist hsub
  refine ⟨res, hres, ?_, ?_, ?_, ?_⟩
  · have h1 : sliced.length ≤ topK.toNat := by
      rw [hsliced_def, pySliceTo, if_neg (by omega)]
      exact (List.length_take _ _).le.trans (Nat.min_le_left _ _)
    omega
  · intro i j hi hj hij
    rw [hget i hi, hget j hj]
    exact List.pairwise_iff_getElem.mp hsortpair i j (by omega) (by omega)
      hij
  · intro i hi
    rw [hget i hi]
  · intro r hr f0 hmf kv hkv
    subst hmf
    obtain ⟨⟨n, hn⟩, rfl⟩ := List.mem_iff_get.mp hr
    rw [hget n hn]
    set p := sliced.get ⟨n, hlen1 ▸ hn⟩ with hp_def
    have hpmem : p ∈ pairs := hperm.mem_iff.mp (hsub.mem (List.get_mem _ _ _))
    have hfst : p.1 ∈ (store.documents.map Prod.snd).filter
        (fun d => ! skipDoc (some f0) d) := by
      rw [← hmap]
      exact List.mem_map_of_mem Prod.fst hpmem
    have hpass : skipDoc (some f0) p.1 = false := by
      have := (List.mem_filter.mp hfst).2
      simpa using this
    rw [skipDoc] at hpass
    by_cases hemp : f0.isEmpty
    · rw [List.isEmpty_iff.mp hemp] at hkv
      simp at hkv
    · rw [if_neg (by simpa using hemp)] at hpass
      have hmatches : matchesFilter p.1.metadata f0 = true := by
        cases hmm : matchesFilter p.1.metadata f0 with
        | false => rw [hmm] at hpass; exact Bool.noConfusion hpass
        | true => rfl
      exact (matchesFilter_iff p.1.metadata f0).mp hmatches kv hkv

/-- Witness for C6: a one-document store with a matching filter. -/
theorem claim_C6_similarity_search_witness :
    ∃ res, (SimpleVectorStore.mk
        [("doc-001", ⟨"doc-001", "text", [0], [("type", "policy")]⟩)]
      ).similaritySearch [0] 5 (some [("type", "policy")]) = .ok res ∧
      (res.length : Int) ≤ 5 ∧
      (∀ (i j : Nat) (hi : i < res.length) (hj : j < res.length), i < j →
        (res.get ⟨j, hj⟩).similarityScore ≤
          (res.get ⟨i, hi⟩).similarityScore) ∧
      (∀ (i : Nat) (hi : i < res.length), (res.get ⟨i, hi⟩).rank = i + 1) ∧
      (∀ r ∈ res, ∀ f, (some [("type", "policy")] :
          Option (List (String × String))) = some f → ∀ kv ∈ f,
        r.document.metadata.lookup kv.1 = some kv.2) :=
  claim_C6_similarity_search
    (SimpleVectorStore.mk
      [("doc-001", ⟨"doc-001", "text", [0], [("type", "policy")]⟩)])
    [0] 5 (some [("type", "policy")]) (by norm_num)
    (by
      intro d hd
      simp only [List.map_cons, List.map_nil, List.mem_singleton] at hd
      rw [hd])

/-- **C6 counterexample.** At `top_k = -1` the Python slice `results[:-1]`
drops only the last element: a two-document store returns one result,
which is not "at most `top_k`" results. -/
theorem claim_C6_similarity_search_counterexample :
    ∃ res, (SimpleVectorStore.mk
        [("d1", ⟨"d1", "a", [0], []⟩), ("d2", ⟨"d2", "b", [0], []⟩)]
      ).similaritySearch [0] (-1) none = .ok res ∧
      ¬ ((res.length : Int) ≤ -1) := by
  obtain ⟨pairs, hok, hmap⟩ := ssCollect_ok_spec [0] none
    ([⟨"d1", "a", [0], []⟩, ⟨"d2", "b", [0], []⟩])
    (by intro d hd; intro _; simp at hd; rcases hd with rfl | rfl <;> rfl)
  have hplen : pairs.length = 2 := by
    have := congrArg List.length hmap
    simpa using this
  set le : (Document × ℝ) → (Document × ℝ) → Bool :=
    fun a b => decide (b.2 ≤ a.2) with hle
  have hslen : (pairs.mergeSort le).length = 2 := by
    rw [(List.mergeSort_perm pairs le).length_eq, hplen]
  refine ⟨((pySliceTo (-1) (pairs.mergeSort le)).enum.map (fun p =>
    { document := p.2.1, similarityScore := p.2.2, rank := p.1 + 1 })),
    ?_, ?_⟩
  · unfold SimpleVectorStore.similaritySearch
    rw [show ([("d1", (⟨"d1", "a", [0], []⟩ : Document)),
        ("d2", ⟨"d2", "b", [0], []⟩)].map Prod.snd) =
      [⟨"d1", "a", [0], []⟩, ⟨"d2", "b", [0], []⟩] from rfl, hok]
  · rw [List.length_map, List.enum_length, pySliceTo, if_pos (by norm_num),
      List.length_take, hslen]
    norm_num

/-!
## Simulated failures (`adapter_pattern.py`, `basic_fsm.py`)

`random.random()` is modelled by an explicit parameter `r : ℚ` standing
for the value the next call would return.  `adapter_pattern.py` consults it
once (`random.random() < 0.1` in `call_legacy_system`).  `basic_fsm.py`
never imports `random`; its embedding therefore carries `r` without
reading it, which is exactly what lets us state that its behaviour is
independent of any random sample.  `time.sleep` and `print` calls have no
observable effect in the model; `datetime.now()` timestamps in the FSM
history are dropped.
-/

/-- Python `sub in s` on strings: prefix check. -/
def charListPrefix : List Char → List Char → Bool
  | [], _ => true
  | _ :: _, [] => false
  | a :: as, b :: bs => if a = b then charListPrefix as bs else false

/-- Python `sub in s` on strings: substring check. -/
def charListInfix : List Char → List Char → Bool
  | sub, [] => charListPrefix sub []
  | sub, hd :: rest => charListPrefix sub (hd :: rest) || charListInfix sub rest

/-- Python `sub in s`. -/
def strContains (s sub : String) : Bool := charListInfix sub.toList s.toList

/-- Python `s.lower()` (as a character list). -/
def strLower (s : String) : List Char := s.toList.map Char.toLower

/-- One inventory entry of the legacy ERP simulation
(`name`, `quantity`, `warehouse`). -/
structure InventoryItem where
  name : String
  quantity : Int
  warehouse : String
deriving DecidableEq, Repr

/-- The value returned by `call_legacy_system` when it does not raise:
either the inventory record (`source` is always `"legacy-erp"`) or the
`{"error": "SKU not found"}` dictionary. -/
inductive LegacyResponse where
  | found (sku name : String) (quantity : Int) (warehouse : String)
  | skuNotFound
deriving DecidableEq, Repr

/-- `LegacySystemAdapter.call_legacy_system`.  `r` is the value of the
`random.random()` call; the `time.sleep(0.1)` has no observable effect. -/
def call_legacy_system (inventory : List (String × InventoryItem))
    (legacyRequest : String) (r : ℚ) : Except String LegacyResponse :=
  if r < 1/10 then .error "Legacy system timeout"
  else
    match inventory.find? (fun p => strContains legacyRequest p.1) with
    | some (sku, data) =>
        .ok (.found sku data.name data.quantity data.warehouse)
    | none => .ok .skuNotFound

/-- `State` from `basic_fsm.py`. -/
inductive FsmState where
  | received
  | processing
  | validated
  | completed
  | failed
  | retry
deriving DecidableEq, Repr

/-- `WorkflowContext` (content is always provided by `run_workflow`). -/
structure WorkflowContext where
  documentId : String
  content : String
  validationResult : Option Bool
  errorMessage : Option String
  retryCount : Nat
  maxRetries : Nat
deriving DecidableEq, Repr

/-- `StateMachine.TRANSITIONS`. -/
def fsmTransitions : FsmState → List FsmState
  | .received => [.processing]
  | .processing => [.validated, .failed]
  | .validated => [.completed, .failed]
  | .failed => [.retry]
  | .retry => [.processing]
  | .completed => []

/-- A `StateMachine` object (history timestamps dropped). -/
structure StateMachine where
  context : WorkflowContext
  state : FsmState
  history : List (FsmState × FsmState)
deriving DecidableEq, Repr

/-- `StateMachine.can_transition`. -/
def canTransition (m : StateMachine) (toState : FsmState) : Bool :=
  decide (toState ∈ fsmTransitions m.state)

/-- `StateMachine.transition` (an invalid transition leaves the machine
unchanged and returns `False`). -/
def fsmTransition (m : StateMachine) (toState : FsmState) : StateMachine :=
  if canTransition m toState then
    { m with state := toState, history := m.history ++ [(m.state, toState)] }
  else m

/-- `StateMachine.is_terminal`. -/
def isTerminal (m : StateMachine) : Bool :=
  decide (m.state = .completed) ||
    (decide (m.state = .failed) &&
      decide (m.context.retryCount ≥ m.context.maxRetries))

/-- `process_document`. -/
def process_document (content : String) : Bool × Option String :=
  if charListInfix "error".toList (strLower content) then
    (false, some "Processing failed: invalid content")
  else (true, none)

/-- `validate_document`. -/
def validate_document (content : String) : Bool := content.length > 10

/-- One iteration of `run_workflow`'s `while` body; the `Bool` is the
`break` in the exhausted-retries branch. -/
def basicFsmStep (m : StateMachine) : StateMachine × Bool :=
  match m.state with
  | .received => (fsmTransition m .processing, false)
  | .processing =>
      let pr := process_document m.context.content
      if pr.1 then
        let ctx := { m.context with
          validationResult := some (validate_document m.context.content) }
        (fsmTransition { m with context := ctx } .validated, false)
      else
        let ctx := { m.context with errorMessage := pr.2 }
        (fsmTransition { m with context := ctx } .failed, false)
  | .validated =>
      if m.context.validationResult = some true then
        (fsmTransition m .completed, false)
      else
        let ctx := { m.context with errorMessage := some "Validation failed" }
        (fsmTransition { m with context := ctx } .failed, false)
  | .failed =>
      if m.context.retryCount < m.context.maxRetries then
        let ctx := { m.context with retryCount := m.context.retryCount + 1 }
        (fsmTransition { m with context := ctx } .retry, false)
      else (m, true)
  | .retry => (fsmTransition m .processing, false)
  | .completed => (m, false)

/-- The `while not fsm.is_terminal():` loop, with fuel (the loop provably
makes at most a few dozen iterations; `64` is comfortably enough). -/
def runWorkflowLoop : Nat → StateMachine → StateMachine
  | 0, m => m
  | fuel + 1, m =>
      if isTerminal m then m
      else
        let step := basicFsmStep m
        if step.2 then step.1 else runWorkflowLoop fuel step.1

/-- `run_workflow(document_id, content)`.  The parameter `r` stands for
the value a `random.random()` call would return; `basic_fsm.py` contains
no such call, so `r` is never consulted. -/
def run_workflow (documentId content : String) (_r : ℚ) : FsmState :=
  let ctx : WorkflowContext :=
    { documentId := documentId
      content := content
      validationResult := none
      errorMessage := none
      retryCount := 0
      maxRetries := 3 }
  let m : StateMachine := { context := ctx, state := .received, history := [] }
  (runWorkflowLoop 64 m).state

/-- **C9 counterexample.** In `basic_fsm.py` no execution path triggers a
failure exactly when the sampled random value is below `0.1`: the file
samples no randomness at all, so on any fixed input the outcome is the
same for a sample of `0` (below `0.1`) and of `1` (not below). -/
theorem claim_C9_random_failure_counterexample :
    ¬ ∃ documentId content : String, ∀ r : ℚ,
      (run_workflow documentId content r = FsmState.failed) ↔ r < 1/10 := by
  rintro ⟨documentId, content, h⟩
  have heq : run_workflow documentId content 0 =
      run_workflow documentId content 1 := rfl
  by_cases hf : run_workflow documentId content 0 = FsmState.failed
  · have h2 := (h 1).mp (heq ▸ hf)
    norm_num at h2
  · exact hf ((h 0).mpr (by norm_num))

/-- **C9 (amended).** Only the circuit-breaker/adapter file simulates
failures with `random.random() < 0.1`: `call_legacy_system` raises
`ConnectionError("Legacy system timeout")` exactly when the sampled value
is below `0.1`.  The FSM file's workflow is independent of any random
sample; its failures are driven by the document content (a document
containing "error" ends in `FAILED` after the retries are exhausted, a
long clean document ends in `COMPLETED`). -/
theorem claim_C9_simulated_failures (inventory :
    List (String × InventoryItem)) (legacyRequest : String) :
    (∀ r : ℚ, (call_legacy_system inventory legacyRequest r =
      .error "Legacy system timeout") ↔ r < 1/10) ∧
    (∀ (documentId content : String) (r r' : ℚ),
      run_workflow documentId content r =
        run_workflow documentId content r') ∧
    (∀ r : ℚ, run_workflow "doc-002" "error" r = FsmState.failed) ∧
    (∀ r : ℚ, run_workflow "doc-001"
      "This is a valid document with enough content." r =
      FsmState.completed) := by
  refine ⟨?_, fun _ _ _ _ => rfl,
    fun r => (by decide : run_workflow "doc-002" "error" 0 = FsmState.failed),
    fun r => (by decide : run_workflow "doc-001"
      "This is a valid document with enough content." 0 =
      FsmState.completed)⟩
  intro r
  constructor
  · intro h
    by_contra hr
    rw [call_legacy_system, if_neg hr] at h
    cases hfind : inventory.find? (fun p => strContains legacyRequest p.1) with
    | none =>
        rw [hfind] at h
        exact Except.noConfusion h
    | some p =>
        obtain ⟨sku, data⟩ := p
        rw [hfind] at h
        exact Except.noConfusion h
  · intro hr
    rw [call_legacy_system, if_pos hr]

end NineSkills
